import Mathlib

set_option maxRecDepth 2000

/-!
Verification of the backboard_browser cache and service layer.

The development shallowly embeds the Python code of the repository:

* `JVal` models JSON-serializable Python values with integer numbers; float
  values lie outside the modelled value space.
* `dumps` / `loads` model the standard library `json.dumps` / `json.loads`
  used by `app/services/cache.py` (canonical separators `", "` and `": "`;
  control characters are emitted in the `\u00XX` form, one of the JSON
  escape forms; `ensure_ascii` transcription of non-ASCII characters is not
  modelled, which does not affect decodability).  `loads` recovers the
  values of the integer fragment; `pyAccepts` decides acceptance of the
  full `json.loads` grammar — numbers with fraction/exponent parts, the
  `NaN`/`Infinity`/`-Infinity` constants, strict rejection of raw control
  characters in strings — and `loadsPy` combines the two, marking a decode
  that succeeds with a float-containing result as out-of-space.  (Lone
  surrogate `\uXXXX` escapes, representable in a Python `str` but not as
  Unicode scalar values, are at the boundary of the embedding; no claim
  touches them.)
* the cache operations of `BackboardCache` are modelled as explicit state
  transformers over the list of memories stored in the cache-holder
  assistant, with an oracle (`Env.fail`) describing which remote calls of
  the Backboard service raise, and `Except`-valued "raw" bodies modelling
  the code inside each `try:` block.
-/

namespace BB

/-- JSON-serializable Python value (`None`, `bool`, `int`, `str`, `list`,
`dict`).  A `dict` is modelled as its list of key/value pairs in insertion
order; Python dictionaries realizable from JSON have pairwise distinct keys. -/
inductive JVal where
  | null : JVal
  | bool (b : Bool) : JVal
  | num (n : Int) : JVal
  | str (s : String) : JVal
  | arr (elems : List JVal) : JVal
  | obj (fields : List (String × JVal)) : JVal

/-! ### Decimal digits of a natural number (`str(int)` in Python) -/

/-- The character for a decimal digit `d < 10`. -/
def digitChar (d : Nat) : Char :=
  match d with
  | 0 => '0' | 1 => '1' | 2 => '2' | 3 => '3' | 4 => '4'
  | 5 => '5' | 6 => '6' | 7 => '7' | 8 => '8' | _ => '9'

/-- Fuel-driven most-significant-first decimal digit expansion. -/
def natToDigitsAux : Nat → Nat → List Char → List Char
  | 0, _, acc => acc
  | fuel+1, n, acc =>
    let acc' := digitChar (n % 10) :: acc
    if n < 10 then acc' else natToDigitsAux fuel (n / 10) acc'

/-- Decimal digits of `n`, most significant first (`str(n)` for `n ≥ 0`). -/
def natToDigits (n : Nat) : List Char := natToDigitsAux (n+1) n []

/-- Characters of `str(n)` for a Python integer `n`. -/
def intToChars : Int → List Char
  | .ofNat n => natToDigits n
  | .negSucc m => '-' :: natToDigits (m+1)

/-- Python `str(n)` for an integer `n`. -/
def intRepr (n : Int) : String := ⟨intToChars n⟩

/-! ### JSON encoder (`json.dumps` with default separators) -/

/-- Hexadecimal digit character (lowercase), for `d < 16`. -/
def hexDigitChar (d : Nat) : Char :=
  match d with
  | 0 => '0' | 1 => '1' | 2 => '2' | 3 => '3' | 4 => '4'
  | 5 => '5' | 6 => '6' | 7 => '7' | 8 => '8' | 9 => '9'
  | 10 => 'a' | 11 => 'b' | 12 => 'c' | 13 => 'd' | 14 => 'e' | _ => 'f'

/-- JSON escaping of a single character inside a string literal. -/
def escChar (c : Char) : List Char :=
  if c = '"' then '\\' :: '"' :: []
  else if c = '\\' then '\\' :: '\\' :: []
  else if c.toNat < 32 then
    '\\' :: 'u' :: '0' :: '0' ::
      hexDigitChar (c.toNat / 16) :: hexDigitChar (c.toNat % 16) :: []
  else [c]

/-- JSON escaping of a character list. -/
def escList : List Char → List Char
  | [] => []
  | c :: cs => escChar c ++ escList cs

/-- Characters of the JSON string literal for `s`. -/
def encStr (s : String) : List Char := '"' :: escList s.data ++ ['"']

mutual
/-- Characters of `json.dumps v` (default separators `", "` / `": "`). -/
def encVal : JVal → List Char
  | .null => 'n' :: 'u' :: 'l' :: 'l' :: []
  | .bool true => 't' :: 'r' :: 'u' :: 'e' :: []
  | .bool false => 'f' :: 'a' :: 'l' :: 's' :: 'e' :: []
  | .num n => intToChars n
  | .str s => encStr s
  | .arr [] => ['[', ']']
  | .arr (v :: vs) => '[' :: (encVal v ++ encItems vs ++ [']'])
  | .obj [] => ['\x7b', '\x7d']
  | .obj (kv :: kvs) => '\x7b' :: (encMember kv ++ encMembers kvs ++ ['\x7d'])

/-- Encoding of the remaining array items, each preceded by `", "`. -/
def encItems : List JVal → List Char
  | [] => []
  | v :: vs => ',' :: ' ' :: (encVal v ++ encItems vs)

/-- Encoding of one object member `"key": value`. -/
def encMember : String × JVal → List Char
  | (k, v) => encStr k ++ ':' :: ' ' :: encVal v

/-- Encoding of the remaining object members, each preceded by `", "`. -/
def encMembers : List (String × JVal) → List Char
  | [] => []
  | kv :: kvs => ',' :: ' ' :: (encMember kv ++ encMembers kvs)
end

/-- `json.dumps v` as a string. -/
def dumps (v : JVal) : String := ⟨encVal v⟩

/-! ### JSON parser (`json.loads`) -/

/-- JSON whitespace. -/
def isWs (c : Char) : Bool := c = ' ' || c = '\t' || c = '\n' || c = '\r'

/-- Skip leading JSON whitespace. -/
def skipWs : List Char → List Char
  | [] => []
  | c :: cs => if isWs c then skipWs cs else c :: cs

/-- Value of a hexadecimal digit character. -/
def hexVal (c : Char) : Option Nat :=
  if c.isDigit then some (c.toNat - 48)
  else if 'a' ≤ c ∧ c ≤ 'f' then some (c.toNat - 87)
  else if 'A' ≤ c ∧ c ≤ 'F' then some (c.toNat - 55)
  else none

/-- Parse the body of a JSON string literal (after the opening quote),
accumulating decoded characters in reverse. -/
def parseStrAux : List Char → List Char → Option (String × List Char)
  | [], _ => none
  | c :: cs, acc =>
    if c = '"' then some (⟨acc.reverse⟩, cs)
    else if c = '\\' then
      match cs with
      | [] => none
      | e :: cs2 =>
        if e = '"' then parseStrAux cs2 ('"' :: acc)
        else if e = '\\' then parseStrAux cs2 ('\\' :: acc)
        else if e = '/' then parseStrAux cs2 ('/' :: acc)
        else if e = 'n' then parseStrAux cs2 ('\n' :: acc)
        else if e = 't' then parseStrAux cs2 ('\t' :: acc)
        else if e = 'r' then parseStrAux cs2 ('\r' :: acc)
        else if e = 'b' then parseStrAux cs2 ('\x08' :: acc)
        else if e = 'f' then parseStrAux cs2 ('\x0c' :: acc)
        else if e = 'u' then
          match cs2 with
          | h1 :: h2 :: h3 :: h4 :: cs3 =>
            match hexVal h1, hexVal h2, hexVal h3, hexVal h4 with
            | some a, some b, some c3, some d =>
              parseStrAux cs3 (Char.ofNat (4096*a + 256*b + 16*c3 + d) :: acc)
            | _, _, _, _ => none
          | _ => none
        else none
    else parseStrAux cs (c :: acc)

/-- Parse a JSON string literal body. -/
def parseStrBody (cs : List Char) : Option (String × List Char) :=
  parseStrAux cs []

/-- Greedily consume decimal digits, extending the accumulator. -/
def parseDigits : List Char → Nat → Nat × List Char
  | [], acc => (acc, [])
  | c :: cs, acc =>
    if c.isDigit then parseDigits cs (acc * 10 + (c.toNat - 48))
    else (acc, c :: cs)

/-- Parse a JSON natural number (no leading zeros: a leading `0` is the
whole number, as in the `json` grammar). -/
def parseNat : List Char → Option (Nat × List Char)
  | [] => none
  | c :: cs =>
    if c = '0' then some (0, cs)
    else if c.isDigit then some (parseDigits cs (c.toNat - 48))
    else none

mutual
/-- Fuel-driven JSON value parser. -/
def parseVal : Nat → List Char → Option (JVal × List Char)
  | 0, _ => none
  | f+1, cs =>
    match skipWs cs with
    | [] => none
    | c :: rest =>
      if c = 'n' then
        match rest with
        | 'u' :: 'l' :: 'l' :: r => some (.null, r)
        | _ => none
      else if c = 't' then
        match rest with
        | 'r' :: 'u' :: 'e' :: r => some (.bool true, r)
        | _ => none
      else if c = 'f' then
        match rest with
        | 'a' :: 'l' :: 's' :: 'e' :: r => some (.bool false, r)
        | _ => none
      else if c = '"' then
        (parseStrBody rest).map (fun p => (.str p.1, p.2))
      else if c = '[' then
        match skipWs rest with
        | [] => (parseItems f []).map (fun p => (.arr p.1, p.2))
        | c2 :: r2 =>
          if c2 = ']' then some (.arr [], r2)
          else (parseItems f (c2 :: r2)).map (fun p => (.arr p.1, p.2))
      else if c = '\x7b' then
        match skipWs rest with
        | [] => (parseMembers f []).map (fun p => (.obj p.1, p.2))
        | c2 :: r2 =>
          if c2 = '\x7d' then some (.obj [], r2)
          else (parseMembers f (c2 :: r2)).map (fun p => (.obj p.1, p.2))
      else if c = '-' then
        (parseNat rest).map (fun p => (.num (-(p.1 : Int)), p.2))
      else if c.isDigit then
        (parseNat (c :: rest)).map (fun p => (.num (p.1 : Int), p.2))
      else none

/-- Parse the items of a non-empty JSON array including the closing `]`. -/
def parseItems : Nat → List Char → Option (List JVal × List Char)
  | 0, _ => none
  | f+1, cs =>
    match parseVal f cs with
    | none => none
    | some (v, r1) =>
      match skipWs r1 with
      | [] => none
      | c :: r2 =>
        if c = ']' then some ([v], r2)
        else if c = ',' then
          match parseItems f r2 with
          | none => none
          | some (vs, r3) => some (v :: vs, r3)
        else none

/-- Parse the members of a non-empty JSON object including the closing brace. -/
def parseMembers : Nat → List Char → Option (List (String × JVal) × List Char)
  | 0, _ => none
  | f+1, cs =>
    match skipWs cs with
    | '"' :: r0 =>
      match parseStrBody r0 with
      | none => none
      | some (k, r1) =>
        match skipWs r1 with
        | ':' :: r2 =>
          match parseVal f r2 with
          | none => none
          | some (v, r3) =>
            match skipWs r3 with
            | [] => none
            | c :: r4 =>
              if c = '\x7d' then some ([(k, v)], r4)
              else if c = ',' then
                match parseMembers f r4 with
                | none => none
                | some (kvs, r5) => some ((k, v) :: kvs, r5)
              else none
        | _ => none
    | _ => none
end

/-- `json.loads s`: parse a single JSON value and require only whitespace
after it; `none` models a raised `JSONDecodeError`. -/
def loads (s : String) : Option JVal :=
  match parseVal (2 * s.data.length + 2) s.data with
  | some (v, rest) => if (skipWs rest).isEmpty then some v else none
  | none => none

/-! ### Full-grammar acceptance of `json.loads`

`parseVal` recovers the fragment of JSON whose numbers are integers — the
only values the model represents.  Python's decoder accepts more: numbers
with fraction or exponent parts and the `NaN` / `Infinity` / `-Infinity`
constants decode to floats, and its strict string scanner rejects raw
control characters.  The checker below accepts exactly the documents
`json.loads` accepts, so that decode *failure* is modelled faithfully even
where the decoded value would fall outside the modelled value space. -/

/-- Consume the body of a string literal (after the opening quote) exactly
as the strict decoder accepts it: a raw control character (code below 32)
or an unknown escape raises. -/
def skipStr : List Char → Option (List Char)
  | [] => none
  | c :: cs =>
    if c = '"' then some cs
    else if c = '\\' then
      match cs with
      | [] => none
      | e :: cs2 =>
        if e = '"' then skipStr cs2
        else if e = '\\' then skipStr cs2
        else if e = '/' then skipStr cs2
        else if e = 'n' then skipStr cs2
        else if e = 't' then skipStr cs2
        else if e = 'r' then skipStr cs2
        else if e = 'b' then skipStr cs2
        else if e = 'f' then skipStr cs2
        else if e = 'u' then
          match cs2 with
          | h1 :: h2 :: h3 :: h4 :: cs3 =>
            match hexVal h1, hexVal h2, hexVal h3, hexVal h4 with
            | some _, some _, some _, some _ => skipStr cs3
            | _, _, _, _ => none
          | _ => none
        else none
    else if c.toNat < 32 then none
    else skipStr cs

/-- Optionally consume a fraction part `.[0-9]+`; when the input does not
match, nothing is consumed (the regex group is optional in the scanner). -/
def skipFrac : List Char → List Char
  | [] => []
  | c :: cs =>
    if c = '.' then
      match cs with
      | [] => c :: cs
      | c2 :: cs2 => if c2.isDigit then (parseDigits cs2 0).2 else c :: cs
    else c :: cs

/-- Optionally consume an exponent part `[eE][+-]?[0-9]+`; when the input
does not match, nothing is consumed. -/
def skipExp : List Char → List Char
  | [] => []
  | c :: cs =>
    if c = 'e' ∨ c = 'E' then
      match cs with
      | [] => c :: cs
      | c2 :: cs2 =>
        if c2 = '+' ∨ c2 = '-' then
          match cs2 with
          | [] => c :: cs
          | c3 :: cs3 => if c3.isDigit then (parseDigits cs3 0).2 else c :: cs
        else if c2.isDigit then (parseDigits cs2 0).2
        else c :: cs
    else c :: cs

mutual
/-- Fuel-driven acceptance checker for the full `json.loads` grammar: beyond
the integer fragment recovered by `parseVal`, it accepts fraction and
exponent parts of numbers and the `NaN` / `Infinity` / `-Infinity`
constants (whose float values lie outside the modelled value space), and
applies the strict string rules. -/
def skipVal : Nat → List Char → Option (List Char)
  | 0, _ => none
  | f+1, cs =>
    match skipWs cs with
    | [] => none
    | c :: rest =>
      if c = 'n' then
        match rest with
        | 'u' :: 'l' :: 'l' :: r => some r
        | _ => none
      else if c = 't' then
        match rest with
        | 'r' :: 'u' :: 'e' :: r => some r
        | _ => none
      else if c = 'f' then
        match rest with
        | 'a' :: 'l' :: 's' :: 'e' :: r => some r
        | _ => none
      else if c = '"' then skipStr rest
      else if c = '[' then
        match skipWs rest with
        | [] => skipItems f []
        | c2 :: r2 =>
          if c2 = ']' then some r2
          else skipItems f (c2 :: r2)
      else if c = '\x7b' then
        match skipWs rest with
        | [] => skipMembers f []
        | c2 :: r2 =>
          if c2 = '\x7d' then some r2
          else skipMembers f (c2 :: r2)
      else if c = 'N' then
        match rest with
        | 'a' :: 'N' :: r => some r
        | _ => none
      else if c = 'I' then
        match rest with
        | 'n' :: 'f' :: 'i' :: 'n' :: 'i' :: 't' :: 'y' :: r => some r
        | _ => none
      else if c = '-' then
        match parseNat rest with
        | some (_, r) => some (skipExp (skipFrac r))
        | none =>
          match rest with
          | 'I' :: 'n' :: 'f' :: 'i' :: 'n' :: 'i' :: 't' :: 'y' :: r => some r
          | _ => none
      else if c.isDigit then
        match parseNat (c :: rest) with
        | some (_, r) => some (skipExp (skipFrac r))
        | none => none
      else none

/-- Accept the items of a non-empty array including the closing `]`. -/
def skipItems : Nat → List Char → Option (List Char)
  | 0, _ => none
  | f+1, cs =>
    match skipVal f cs with
    | none => none
    | some r1 =>
      match skipWs r1 with
      | [] => none
      | c :: r2 =>
        if c = ']' then some r2
        else if c = ',' then skipItems f r2
        else none

/-- Accept the members of a non-empty object including the closing brace. -/
def skipMembers : Nat → List Char → Option (List Char)
  | 0, _ => none
  | f+1, cs =>
    match skipWs cs with
    | '"' :: r0 =>
      match skipStr r0 with
      | none => none
      | some r1 =>
        match skipWs r1 with
        | ':' :: r2 =>
          match skipVal f r2 with
          | none => none
          | some r3 =>
            match skipWs r3 with
            | [] => none
            | c :: r4 =>
              if c = '\x7d' then some r4
              else if c = ',' then skipMembers f r4
              else none
        | _ => none
    | _ => none
end

/-- Whether `json.loads s` succeeds (with some value): acceptance by the
full grammar with only whitespace after the document. -/
def pyAccepts (s : String) : Bool :=
  match skipVal (2 * s.data.length + 2) s.data with
  | some rest => (skipWs rest).isEmpty
  | none => false

/-- `json.loads s` with the boundary of the modelled value space made
explicit: `none` models a raised `JSONDecodeError`; `some (some v)` a
successful decode of the value `v`; `some none` a successful decode whose
result contains floats (`1.5`, `1e3`, `NaN`, ...), which the value space of
the model does not represent.  A document the full grammar accepts on which
the integer-fragment parser fails contains a fraction, exponent or float
constant token, so the split is exact. -/
def loadsPy (s : String) : Option (Option JVal) :=
  if pyAccepts s then some (loads s) else none

/-! ### Round-trip: decimal numbers -/

theorem digitChar_toNat {d : Nat} (h : d < 10) : (digitChar d).toNat = 48 + d := by
  interval_cases d <;> rfl

theorem digitChar_isDigit {d : Nat} (h : d < 10) : (digitChar d).isDigit = true := by
  interval_cases d <;> decide

theorem digitChar_ne_zero {d : Nat} (h1 : 1 ≤ d) (h2 : d < 10) : digitChar d ≠ '0' := by
  interval_cases d <;> decide

theorem natToDigitsAux_acc (f : Nat) : ∀ n acc,
    natToDigitsAux f n acc = natToDigitsAux f n [] ++ acc := by
  induction f with
  | zero => intro n acc; simp [natToDigitsAux]
  | succ f ih =>
    intro n acc
    by_cases h : n < 10
    · simp [natToDigitsAux, h]
    · simp only [natToDigitsAux, if_neg h]
      rw [ih (n / 10) [digitChar (n % 10)], ih (n / 10) (digitChar (n % 10) :: acc)]
      simp

theorem natToDigitsAux_irrel : ∀ f1 f2 n, n < f1 → n < f2 →
    natToDigitsAux f1 n [] = natToDigitsAux f2 n [] := by
  intro f1
  induction f1 with
  | zero => omega
  | succ f1 ih =>
    intro f2 n h1 h2
    match f2, h2 with
    | f2+1, h2 =>
      by_cases h : n < 10
      · simp [natToDigitsAux, h]
      · simp only [natToDigitsAux, if_neg h]
        rw [natToDigitsAux_acc f1, natToDigitsAux_acc f2]
        have hd : n / 10 < f1 := by omega
        have hd2 : n / 10 < f2 := by omega
        rw [ih f2 (n / 10) hd hd2]

theorem natToDigits_lt (n : Nat) (h : n < 10) : natToDigits n = [digitChar n] := by
  simp [natToDigits, natToDigitsAux, h, Nat.mod_eq_of_lt h]

theorem natToDigits_ge (n : Nat) (h : ¬ n < 10) :
    natToDigits n = natToDigits (n / 10) ++ [digitChar (n % 10)] := by
  unfold natToDigits
  conv_lhs => rw [natToDigitsAux, if_neg h]
  rw [natToDigitsAux_acc n]
  congr 1
  exact natToDigitsAux_irrel n (n / 10 + 1) (n / 10) (by omega) (by omega)

theorem natToDigits_all_digits : ∀ n, ∀ c ∈ natToDigits n, c.isDigit = true := by
  intro n
  induction n using Nat.strong_induction_on with
  | _ n ih =>
    by_cases h : n < 10
    · rw [natToDigits_lt n h]
      intro c hc
      simp at hc
      subst hc
      exact digitChar_isDigit h
    · rw [natToDigits_ge n h]
      intro c hc
      rcases List.mem_append.mp hc with h1 | h2
      · exact ih (n / 10) (by omega) c h1
      · simp at h2
        subst h2
        exact digitChar_isDigit (Nat.mod_lt n (by omega))

theorem natToDigits_head : ∀ n, 1 ≤ n →
    ∃ c t, natToDigits n = c :: t ∧ c ≠ '0' ∧ c.isDigit = true := by
  intro n
  induction n using Nat.strong_induction_on with
  | _ n ih =>
    intro hn
    by_cases h : n < 10
    · exact ⟨digitChar n, [], natToDigits_lt n h, digitChar_ne_zero hn h,
        digitChar_isDigit h⟩
    · obtain ⟨c, t, ht, hc0, hcd⟩ := ih (n / 10) (by omega) (by omega)
      exact ⟨c, t ++ [digitChar (n % 10)], by rw [natToDigits_ge n h, ht]; simp,
        hc0, hcd⟩

/-- Value of a digit string continuing an accumulator, as in `parseDigits`. -/
def digitsVal (ds : List Char) (a : Nat) : Nat :=
  ds.foldl (fun x c => x * 10 + (c.toNat - 48)) a

/-- Encoded head constraint: the continuation does not begin with a digit, so
greedy digit consumption stops exactly at the value boundary. -/
def notDigitHead : List Char → Prop
  | [] => True
  | c :: _ => c.isDigit = false

theorem parseDigits_append : ∀ ds a rest, (∀ c ∈ ds, c.isDigit = true) →
    notDigitHead rest → parseDigits (ds ++ rest) a = (digitsVal ds a, rest) := by
  intro ds
  induction ds with
  | nil =>
    intro a rest _ hrest
    cases rest with
    | nil => simp [parseDigits, digitsVal]
    | cons c cs => simp [parseDigits, digitsVal, notDigitHead.eq_def] at hrest ⊢; simp [hrest]
  | cons c cs ih =>
    intro a rest hds hrest
    have hc : c.isDigit = true := hds c (by simp)
    simp only [List.cons_append, parseDigits, hc, if_pos, List.append_eq]
    rw [ih _ rest (fun x hx => hds x (by simp [hx])) hrest]
    simp [digitsVal]

theorem digitsVal_natToDigits : ∀ n a,
    digitsVal (natToDigits n) a = a * 10 ^ (natToDigits n).length + n := by
  intro n
  induction n using Nat.strong_induction_on with
  | _ n ih =>
    intro a
    by_cases h : n < 10
    · rw [natToDigits_lt n h]
      simp [digitsVal, digitChar_toNat h]
    · rw [natToDigits_ge n h]
      simp only [digitsVal, List.foldl_append]
      have ihh := ih (n / 10) (by omega) a
      simp only [digitsVal] at ihh
      rw [ihh]
      simp only [List.foldl_cons, List.foldl_nil, List.length_append, List.length_cons,
        List.length_nil]
      rw [digitChar_toNat (by omega : n % 10 < 10)]
      have h2 : 48 + n % 10 - 48 = n % 10 := by omega
      rw [h2]
      generalize (natToDigits (n / 10)).length = L
      have key : n / 10 * 10 + n % 10 = n := by omega
      calc (a * 10 ^ L + n / 10) * 10 + n % 10
          = a * (10 ^ L * 10) + (n / 10 * 10 + n % 10) := by ring
        _ = a * 10 ^ (L + 1) + n := by rw [key, pow_succ]

theorem natToDigits_ne_nil (n : Nat) : natToDigits n ≠ [] := by
  by_cases h : n < 10
  · rw [natToDigits_lt n h]; simp
  · rw [natToDigits_ge n h]; simp

theorem parseNat_enc : ∀ n rest, notDigitHead rest →
    parseNat (natToDigits n ++ rest) = some (n, rest) := by
  intro n rest hrest
  by_cases h0 : n = 0
  · subst h0
    rw [natToDigits_lt 0 (by omega)]
    simp [parseNat, digitChar]
  · obtain ⟨c, t, ht, hc0, hcd⟩ := natToDigits_head n (by omega)
    rw [ht]
    simp only [List.cons_append, parseNat, if_neg hc0, hcd, if_pos]
    have hall : ∀ x ∈ t, x.isDigit = true := by
      intro x hx
      exact natToDigits_all_digits n x (by rw [ht]; simp [hx])
    rw [parseDigits_append t _ rest hall hrest]
    have hv : digitsVal (c :: t) 0 = n := by
      have := digitsVal_natToDigits n 0
      rw [ht] at this
      simpa using this
    have : digitsVal t (c.toNat - 48) = n := by
      simpa [digitsVal] using hv
    rw [this]

/-! ### Round-trip: strings -/

theorem hexVal_hexDigitChar {d : Nat} (h : d < 16) : hexVal (hexDigitChar d) = some d := by
  interval_cases d <;> decide

theorem parseStrAux_quote (rest acc : List Char) :
    parseStrAux ('"' :: rest) acc = some (⟨acc.reverse⟩, rest) := by
  rw [parseStrAux.eq_def]; simp

theorem parseStrAux_escQuote (rest acc : List Char) :
    parseStrAux ('\\' :: '"' :: rest) acc = parseStrAux rest ('"' :: acc) := by
  rw [parseStrAux.eq_def]; simp

theorem parseStrAux_escBackslash (rest acc : List Char) :
    parseStrAux ('\\' :: '\\' :: rest) acc = parseStrAux rest ('\\' :: acc) := by
  rw [parseStrAux.eq_def]; simp

theorem parseStrAux_escU (h1 h2 h3 h4 : Char) (rest acc : List Char)
    (a b c3 d : Nat) (e1 : hexVal h1 = some a) (e2 : hexVal h2 = some b)
    (e3 : hexVal h3 = some c3) (e4 : hexVal h4 = some d) :
    parseStrAux ('\\' :: 'u' :: h1 :: h2 :: h3 :: h4 :: rest) acc
      = parseStrAux rest (Char.ofNat (4096*a + 256*b + 16*c3 + d) :: acc) := by
  rw [parseStrAux.eq_def]; simp [e1, e2, e3, e4]

theorem parseStrAux_plain (c : Char) (rest acc : List Char)
    (hq : c ≠ '"') (hb : c ≠ '\\') :
    parseStrAux (c :: rest) acc = parseStrAux rest (c :: acc) := by
  rw [parseStrAux.eq_def]; simp [hq, hb]

theorem parseStrAux_esc : ∀ cs acc rest,
    parseStrAux (escList cs ++ '"' :: rest) acc = some (⟨acc.reverse ++ cs⟩, rest) := by
  intro cs
  induction cs with
  | nil =>
    intro acc rest
    simp [escList, parseStrAux_quote]
  | cons c cs ih =>
    intro acc rest
    simp only [escList, List.append_assoc]
    by_cases hq : c = '"'
    · subst hq
      rw [show escChar '"' = ['\\', '"'] from by decide]
      simp only [List.cons_append, List.nil_append, parseStrAux_escQuote]
      rw [ih ('"' :: acc) rest]
      simp
    · by_cases hb : c = '\\'
      · subst hb
        rw [show escChar '\\' = ['\\', '\\'] from by decide]
        simp only [List.cons_append, List.nil_append, parseStrAux_escBackslash]
        rw [ih ('\\' :: acc) rest]
        simp
      · by_cases hlt : c.toNat < 32
        · simp only [escChar, if_neg hq, if_neg hb, if_pos hlt, List.cons_append,
            List.nil_append]
          rw [parseStrAux_escU _ _ _ _ _ _ 0 0 (c.toNat / 16) (c.toNat % 16)
            (by decide) (by decide)
            (hexVal_hexDigitChar (by omega : c.toNat / 16 < 16))
            (hexVal_hexDigitChar (by omega : c.toNat % 16 < 16))]
          have harith : 4096*0 + 256*0 + 16 * (c.toNat / 16) + c.toNat % 16 = c.toNat := by
            omega
          rw [harith, Char.ofNat_toNat c]
          rw [ih (c :: acc) rest]
          simp
        · simp only [escChar, if_neg hq, if_neg hb, if_neg hlt, List.cons_append,
            List.nil_append]
          rw [parseStrAux_plain c _ _ hq hb, ih (c :: acc) rest]
          simp

theorem parseStrBody_enc (s : String) (rest : List Char) :
    parseStrBody (escList s.data ++ '"' :: rest) = some (s, rest) := by
  rw [parseStrBody, parseStrAux_esc s.data [] rest]
  cases s
  simp

/-! ### Round-trip: full values -/

theorem skipWs_cons {c : Char} (l : List Char) (h : isWs c = false) :
    skipWs (c :: l) = c :: l := by simp [skipWs, h]

theorem digit_not_ws {c : Char} (h : c.isDigit = true) : isWs c = false := by
  by_cases hw : isWs c = true
  · simp only [isWs, Bool.or_eq_true, decide_eq_true_eq] at hw
    rcases hw with ((h1 | h1) | h1) | h1 <;> (subst h1; simp at h)
  · simpa using hw

theorem digit_not_special {c : Char} (h : c.isDigit = true) :
    ¬c = 'n' ∧ ¬c = 't' ∧ ¬c = 'f' ∧ ¬c = '"' ∧ ¬c = '[' ∧
      ¬c = '\x7b' ∧ ¬c = '-' ∧ ¬c = ']' := by
  refine ⟨?_, ?_, ?_, ?_, ?_, ?_, ?_, ?_⟩ <;> (intro h1; subst h1; simp at h)

theorem parseVal_succ_digit (f : Nat) (c : Char) (rs : List Char) (h : c.isDigit = true) :
    parseVal (f+1) (c :: rs)
      = (parseNat (c :: rs)).map (fun p => (JVal.num (p.1 : Int), p.2)) := by
  obtain ⟨h1, h2, h3, h4, h5, h6, h7, _⟩ := digit_not_special h
  rw [parseVal.eq_2]
  rw [skipWs_cons _ (digit_not_ws h)]
  simp only [if_neg h1, if_neg h2, if_neg h3, if_neg h4, if_neg h5, if_neg h6, if_neg h7,
    h, if_pos]

theorem encVal_head : ∀ v : JVal, ∃ c t, encVal v = c :: t ∧ isWs c = false ∧ ¬c = ']' := by
  intro v
  match v with
  | .null => exact ⟨'n', _, rfl, by decide, by decide⟩
  | .bool true => exact ⟨'t', _, rfl, by decide, by decide⟩
  | .bool false => exact ⟨'f', _, rfl, by decide, by decide⟩
  | .num (.ofNat m) =>
    cases hd : natToDigits m with
    | nil => exact absurd hd (natToDigits_ne_nil m)
    | cons c t =>
      have hcd : c.isDigit = true := natToDigits_all_digits m c (by rw [hd]; simp)
      exact ⟨c, t, by simp [encVal, intToChars, hd], digit_not_ws hcd,
        (digit_not_special hcd).2.2.2.2.2.2.2⟩
  | .num (.negSucc m) =>
    exact ⟨'-', natToDigits (m+1), rfl, by decide, by decide⟩
  | .str s => exact ⟨'"', _, rfl, by decide, by decide⟩
  | .arr [] => exact ⟨'[', _, rfl, by decide, by decide⟩
  | .arr (v :: vs) => exact ⟨'[', _, rfl, by decide, by decide⟩
  | .obj [] => exact ⟨'\x7b', _, rfl, by decide, by decide⟩
  | .obj (kv :: kvs) => exact ⟨'\x7b', _, rfl, by decide, by decide⟩

theorem encVal_length_pos (v : JVal) : 1 ≤ (encVal v).length := by
  obtain ⟨c, t, hh, _, _⟩ := encVal_head v
  rw [hh]
  simp

theorem ndh_items (vs : List JVal) (rest : List Char) :
    notDigitHead (encItems vs ++ ']' :: rest) := by
  cases vs with
  | nil => simp [encItems, notDigitHead]
  | cons v vs => simp [encItems, notDigitHead]

theorem ndh_members (kvs : List (String × JVal)) (rest : List Char) :
    notDigitHead (encMembers kvs ++ '\x7d' :: rest) := by
  cases kvs with
  | nil => simp [encMembers, notDigitHead]
  | cons kv kvs => simp [encMembers, notDigitHead]

theorem skipWs_space (l : List Char) : skipWs (' ' :: l) = skipWs l := by
  simp [skipWs, isWs]

theorem skipWs_colon (l : List Char) : skipWs (':' :: l) = ':' :: l :=
  skipWs_cons l (by decide)

theorem skipWs_comma (l : List Char) : skipWs (',' :: l) = ',' :: l :=
  skipWs_cons l (by decide)

theorem skipWs_rsqb (l : List Char) : skipWs (']' :: l) = ']' :: l :=
  skipWs_cons l (by decide)

theorem skipWs_rbrace (l : List Char) : skipWs ('\x7d' :: l) = '\x7d' :: l :=
  skipWs_cons l (by decide)

theorem parseVal_succ_quote (f : Nat) (rs : List Char) :
    parseVal (f+1) ('"' :: rs)
      = (parseStrBody rs).map (fun p => (JVal.str p.1, p.2)) := by
  rw [parseVal.eq_2]
  rw [skipWs_cons _ (by decide)]
  simp only [show (('"' : Char) = 'n') = False from by decide,
    show (('"' : Char) = 't') = False from by decide,
    show (('"' : Char) = 'f') = False from by decide,
    show (('"' : Char) = '"') = True from by decide, if_true, if_false]

theorem parseVal_succ_minus (f : Nat) (rs : List Char) :
    parseVal (f+1) ('-' :: rs)
      = (parseNat rs).map (fun p => (JVal.num (-(p.1 : Int)), p.2)) := by
  rw [parseVal.eq_2]
  rw [skipWs_cons _ (by decide)]
  simp only [show (('-' : Char) = 'n') = False from by decide,
    show (('-' : Char) = 't') = False from by decide,
    show (('-' : Char) = 'f') = False from by decide,
    show (('-' : Char) = '"') = False from by decide,
    show (('-' : Char) = '[') = False from by decide,
    show (('-' : Char) = '\x7b') = False from by decide,
    show (('-' : Char) = '-') = True from by decide, if_true, if_false]

theorem parseVal_succ_lbracket (f : Nat) (rs : List Char) :
    parseVal (f+1) ('[' :: rs)
      = match skipWs rs with
        | [] => (parseItems f []).map (fun p => (JVal.arr p.1, p.2))
        | c2 :: r2 =>
          if c2 = ']' then some (JVal.arr [], r2)
          else (parseItems f (c2 :: r2)).map (fun p => (JVal.arr p.1, p.2)) := by
  rw [parseVal.eq_2]
  rw [skipWs_cons _ (by decide)]
  simp only [show (('[' : Char) = 'n') = False from by decide,
    show (('[' : Char) = 't') = False from by decide,
    show (('[' : Char) = 'f') = False from by decide,
    show (('[' : Char) = '"') = False from by decide,
    show (('[' : Char) = '[') = True from by decide, if_true, if_false]

theorem parseVal_succ_lbrace (f : Nat) (rs : List Char) :
    parseVal (f+1) ('\x7b' :: rs)
      = match skipWs rs with
        | [] => (parseMembers f []).map (fun p => (JVal.obj p.1, p.2))
        | c2 :: r2 =>
          if c2 = '\x7d' then some (JVal.obj [], r2)
          else (parseMembers f (c2 :: r2)).map (fun p => (JVal.obj p.1, p.2)) := by
  rw [parseVal.eq_2]
  rw [skipWs_cons _ (by decide)]
  simp only [show (('\x7b' : Char) = 'n') = False from by decide,
    show (('\x7b' : Char) = 't') = False from by decide,
    show (('\x7b' : Char) = 'f') = False from by decide,
    show (('\x7b' : Char) = '"') = False from by decide,
    show (('\x7b' : Char) = '[') = False from by decide,
    show (('\x7b' : Char) = '\x7b') = True from by decide, if_true, if_false]

theorem parseMembers_succ_quote (f : Nat) (r0 : List Char) :
    parseMembers (f+1) ('"' :: r0)
      = match parseStrBody r0 with
        | none => none
        | some (k, r1) =>
          match skipWs r1 with
          | ':' :: r2 =>
            match parseVal f r2 with
            | none => none
            | some (v, r3) =>
              match skipWs r3 with
              | [] => none
              | c :: r4 =>
                if c = '\x7d' then some ([(k, v)], r4)
                else if c = ',' then
                  match parseMembers f r4 with
                  | none => none
                  | some (kvs, r5) => some ((k, v) :: kvs, r5)
                else none
          | _ => none := by
  rw [parseMembers.eq_2]
  rw [skipWs_cons _ (by decide)]
  rfl

theorem parseVal_space (f : Nat) (l : List Char) : parseVal f (' ' :: l) = parseVal f l := by
  cases f with
  | zero => rfl
  | succ g =>
    simp only [parseVal.eq_2]
    rw [skipWs_space]

theorem parseItems_space (f : Nat) (l : List Char) :
    parseItems f (' ' :: l) = parseItems f l := by
  cases f with
  | zero => rfl
  | succ g =>
    simp only [parseItems.eq_2]
    rw [parseVal_space]

theorem parseMembers_space (f : Nat) (l : List Char) :
    parseMembers f (' ' :: l) = parseMembers f l := by
  cases f with
  | zero => rfl
  | succ g =>
    simp only [parseMembers.eq_2]
    rw [skipWs_space]

/-- The parser recovers everything the encoder produces: simultaneously for
values, array tails and object tails, by induction on the parser fuel. -/
theorem parse_enc : ∀ f : Nat,
    (∀ v rest, (encVal v).length ≤ f → notDigitHead rest →
      parseVal f (encVal v ++ rest) = some (v, rest)) ∧
    (∀ v vs rest, (encVal v).length + (encItems vs).length + 1 ≤ f →
      parseItems f (encVal v ++ (encItems vs ++ ']' :: rest)) = some (v :: vs, rest)) ∧
    (∀ k v kvs rest,
        (encMember (k, v)).length + (encMembers kvs).length + 1 ≤ f →
      parseMembers f (encMember (k, v) ++ (encMembers kvs ++ '\x7d' :: rest))
        = some ((k, v) :: kvs, rest)) := by
  intro f
  induction f with
  | zero =>
    refine ⟨?_, ?_, ?_⟩
    · intro v rest hle _
      exact absurd hle (by have := encVal_length_pos v; omega)
    · intro v vs rest hle
      exact absurd hle (by omega)
    · intro k v kvs rest hle
      exact absurd hle (by omega)
  | succ f ih =>
    obtain ⟨ihP, ihQ, ihR⟩ := ih
    refine ⟨?_, ?_, ?_⟩
    · -- parseVal on an encoded value
      intro v rest hle hrest
      match v with
      | .null =>
        simp only [encVal, List.cons_append, List.nil_append]
        rw [parseVal.eq_2, skipWs_cons _ (by decide)]
        simp only [show (('n' : Char) = 'n') = True from by decide, if_true]
      | .bool true =>
        simp only [encVal, List.cons_append, List.nil_append]
        rw [parseVal.eq_2, skipWs_cons _ (by decide)]
        simp only [show (('t' : Char) = 'n') = False from by decide,
          show (('t' : Char) = 't') = True from by decide, if_true, if_false]
      | .bool false =>
        simp only [encVal, List.cons_append, List.nil_append]
        rw [parseVal.eq_2, skipWs_cons _ (by decide)]
        simp only [show (('f' : Char) = 'n') = False from by decide,
          show (('f' : Char) = 't') = False from by decide,
          show (('f' : Char) = 'f') = True from by decide, if_true, if_false]
      | .num (.ofNat m) =>
        simp only [encVal, intToChars]
        cases hd : natToDigits m with
        | nil => exact absurd hd (natToDigits_ne_nil m)
        | cons c t =>
          have hcd : c.isDigit = true := natToDigits_all_digits m c (by rw [hd]; simp)
          simp only [List.cons_append, parseVal_succ_digit f c _ hcd]
          rw [show c :: (t ++ rest) = (c :: t) ++ rest from rfl, ← hd,
            parseNat_enc m rest hrest]
          simp
      | .num (.negSucc m) =>
        simp only [encVal, intToChars, List.cons_append]
        rw [parseVal_succ_minus, parseNat_enc (m+1) rest hrest]
        simp [Int.negSucc_eq]
      | .str s =>
        simp only [encVal, encStr, List.cons_append, List.append_assoc,
          List.singleton_append]
        rw [parseVal_succ_quote, parseStrBody_enc]
        simp
      | .arr [] =>
        simp only [encVal, List.cons_append, List.nil_append]
        rw [parseVal_succ_lbracket, skipWs_rsqb]
        simp
      | .arr (v1 :: vs) =>
        have hsz : (encVal v1).length + (encItems vs).length + 1 ≤ f := by
          simp only [encVal, List.length_cons, List.length_append,
            List.length_singleton] at hle
          omega
        obtain ⟨c, t, hh, hwsc, hbr⟩ := encVal_head v1
        simp only [encVal, List.cons_append, List.append_assoc, List.singleton_append,
          List.nil_append]
        rw [parseVal_succ_lbracket, hh, List.cons_append, skipWs_cons _ hwsc]
        simp only [if_neg hbr]
        rw [← List.cons_append, ← hh, ihQ v1 vs rest hsz]
        simp
      | .obj [] =>
        simp only [encVal, List.cons_append, List.nil_append]
        rw [parseVal_succ_lbrace, skipWs_rbrace]
        simp
      | .obj ((k1, v1) :: kvs) =>
        have hsz : (encMember (k1, v1)).length + (encMembers kvs).length + 1 ≤ f := by
          simp only [encVal, List.length_cons, List.length_append,
            List.length_singleton] at hle
          omega
        simp only [encVal, List.cons_append, List.append_assoc, List.singleton_append,
          List.nil_append]
        rw [parseVal_succ_lbrace]
        rw [show encMember (k1, v1) ++ (encMembers kvs ++ '\x7d' :: rest)
              = '"' :: (escList k1.data ++ ('"' :: (':' :: (' ' :: (encVal v1
                ++ (encMembers kvs ++ '\x7d' :: rest)))))) from by
            simp [encMember, encStr]]
        rw [skipWs_cons _ (by decide)]
        simp only [show ¬('"' : Char) = '\x7d' from by decide, if_neg, if_false]
        rw [show '"' :: (escList k1.data ++ ('"' :: (':' :: (' ' :: (encVal v1
              ++ (encMembers kvs ++ '\x7d' :: rest))))))
            = encMember (k1, v1) ++ (encMembers kvs ++ '\x7d' :: rest) from by
            simp [encMember, encStr]]
        rw [ihR k1 v1 kvs rest hsz]
        simp
    · -- parseItems on encoded items
      intro v vs rest hle
      have hszv : (encVal v).length ≤ f := by omega
      rw [parseItems.eq_2, ihP v (encItems vs ++ ']' :: rest) hszv (ndh_items vs rest)]
      cases vs with
      | nil =>
        simp only [encItems, List.nil_append]
        rw [skipWs_rsqb]
        simp
      | cons w ws =>
        have hszw : (encVal w).length + (encItems ws).length + 1 ≤ f := by
          simp only [encItems, List.length_cons, List.length_append] at hle
          omega
        simp only [encItems, List.cons_append, List.append_assoc]
        rw [skipWs_comma]
        simp only [show ¬(',' : Char) = ']' from by decide, if_neg, if_false, if_pos rfl]
        rw [parseItems_space, ihQ w ws rest hszw]
        simp
    · -- parseMembers on encoded members
      intro k v kvs rest hle
      have hszv : (encVal v).length ≤ f := by
        simp only [encMember, encStr, List.length_append, List.length_cons] at hle
        omega
      rw [show encMember (k, v) ++ (encMembers kvs ++ '\x7d' :: rest)
            = '"' :: (escList k.data ++ ('"' :: (':' :: (' ' :: (encVal v
              ++ (encMembers kvs ++ '\x7d' :: rest)))))) from by
          simp [encMember, encStr]]
      rw [parseMembers_succ_quote]
      rw [show escList k.data ++ ('"' :: (':' :: (' ' :: (encVal v
            ++ (encMembers kvs ++ '\x7d' :: rest)))))
          = escList k.data ++ '"' :: (':' :: (' ' :: (encVal v
            ++ (encMembers kvs ++ '\x7d' :: rest)))) from rfl]
      rw [parseStrBody_enc k]
      simp only [skipWs_colon]
      rw [parseVal_space, ihP v (encMembers kvs ++ '\x7d' :: rest) hszv
        (ndh_members kvs rest)]
      cases kvs with
      | nil =>
        simp only [encMembers, List.nil_append]
        rw [skipWs_rbrace]
        simp
      | cons kv2 kvs2 =>
        match kv2 with
        | (k2, v2) =>
          have hszw : (encMember (k2, v2)).length + (encMembers kvs2).length + 1 ≤ f := by
            simp only [encMembers, List.length_cons, List.length_append] at hle
            omega
          simp only [encMembers, List.cons_append, List.append_assoc]
          rw [skipWs_comma]
          simp only [show ¬(',' : Char) = '\x7d' from by decide, if_neg, if_false,
            if_pos rfl]
          rw [parseMembers_space, ihR k2 v2 kvs2 rest hszw]
          simp

/-- `json.loads` inverts `json.dumps`: every JSON-serializable value survives
the encode/decode round trip. -/
theorem loads_dumps (v : JVal) : loads (dumps v) = some v := by
  have h := (parse_enc (2 * (encVal v).length + 2)).1 v []
    (by omega) trivial
  rw [List.append_nil] at h
  simp only [loads, dumps]
  rw [h]
  simp [skipWs]

/-! ### The acceptance checker accepts everything the encoder produces -/

theorem skipStr_quote (rest : List Char) : skipStr ('"' :: rest) = some rest := by
  rw [skipStr.eq_def]; simp

theorem skipStr_escQuote (rest : List Char) :
    skipStr ('\\' :: '"' :: rest) = skipStr rest := by
  rw [skipStr.eq_def]; simp

theorem skipStr_escBackslash (rest : List Char) :
    skipStr ('\\' :: '\\' :: rest) = skipStr rest := by
  rw [skipStr.eq_def]; simp

theorem skipStr_escU (h1 h2 h3 h4 : Char) (rest : List Char)
    (a b c3 d : Nat) (e1 : hexVal h1 = some a) (e2 : hexVal h2 = some b)
    (e3 : hexVal h3 = some c3) (e4 : hexVal h4 = some d) :
    skipStr ('\\' :: 'u' :: h1 :: h2 :: h3 :: h4 :: rest) = skipStr rest := by
  rw [skipStr.eq_def]; simp [e1, e2, e3, e4]

theorem skipStr_plain (c : Char) (rest : List Char)
    (hq : c ≠ '"') (hb : c ≠ '\\') (hge : ¬ c.toNat < 32) :
    skipStr (c :: rest) = skipStr rest := by
  rw [skipStr.eq_def]; simp [hq, hb, hge]

theorem skipStr_esc : ∀ cs rest, skipStr (escList cs ++ '"' :: rest) = some rest := by
  intro cs
  induction cs with
  | nil =>
    intro rest
    simp [escList, skipStr_quote]
  | cons c cs ih =>
    intro rest
    simp only [escList, List.append_assoc]
    by_cases hq : c = '"'
    · subst hq
      rw [show escChar '"' = ['\\', '"'] from by decide]
      simp only [List.cons_append, List.nil_append, skipStr_escQuote]
      exact ih rest
    · by_cases hb : c = '\\'
      · subst hb
        rw [show escChar '\\' = ['\\', '\\'] from by decide]
        simp only [List.cons_append, List.nil_append, skipStr_escBackslash]
        exact ih rest
      · by_cases hlt : c.toNat < 32
        · simp only [escChar, if_neg hq, if_neg hb, if_pos hlt, List.cons_append,
            List.nil_append]
          rw [skipStr_escU _ _ _ _ _ 0 0 (c.toNat / 16) (c.toNat % 16)
            (by decide) (by decide)
            (hexVal_hexDigitChar (by omega : c.toNat / 16 < 16))
            (hexVal_hexDigitChar (by omega : c.toNat % 16 < 16))]
          exact ih rest
        · simp only [escChar, if_neg hq, if_neg hb, if_neg hlt, List.cons_append,
            List.nil_append]
          rw [skipStr_plain c _ hq hb hlt]
          exact ih rest

/-- Encoded head constraint for the acceptance checker: the continuation
starts with no character that could extend a number token. -/
def numStop : List Char → Prop
  | [] => True
  | c :: _ => c.isDigit = false ∧ c ≠ '.' ∧ c ≠ 'e' ∧ c ≠ 'E'

theorem numStop_notDigitHead {l : List Char} (h : numStop l) : notDigitHead l := by
  cases l with
  | nil => trivial
  | cons c cs => exact h.1

theorem skipFrac_stop {l : List Char} (h : numStop l) : skipFrac l = l := by
  cases l with
  | nil => rfl
  | cons c cs =>
    rw [skipFrac.eq_def]
    simp [h.2.1]

theorem skipExp_stop {l : List Char} (h : numStop l) : skipExp l = l := by
  cases l with
  | nil => rfl
  | cons c cs =>
    rw [skipExp.eq_def]
    simp [h.2.2.1, h.2.2.2]

theorem ns_items (vs : List JVal) (rest : List Char) :
    numStop (encItems vs ++ ']' :: rest) := by
  cases vs with
  | nil =>
    simp only [encItems, List.nil_append]
    exact ⟨by decide, by decide, by decide, by decide⟩
  | cons v vs =>
    simp only [encItems, List.cons_append]
    exact ⟨by decide, by decide, by decide, by decide⟩

theorem ns_members (kvs : List (String × JVal)) (rest : List Char) :
    numStop (encMembers kvs ++ '\x7d' :: rest) := by
  cases kvs with
  | nil =>
    simp only [encMembers, List.nil_append]
    exact ⟨by decide, by decide, by decide, by decide⟩
  | cons kv kvs =>
    simp only [encMembers, List.cons_append]
    exact ⟨by decide, by decide, by decide, by decide⟩

theorem digit_not_NI {c : Char} (h : c.isDigit = true) : ¬c = 'N' ∧ ¬c = 'I' := by
  constructor <;> (intro h1; subst h1; simp at h)

theorem skipVal_succ_digit (f : Nat) (c : Char) (rs : List Char) (h : c.isDigit = true) :
    skipVal (f+1) (c :: rs)
      = match parseNat (c :: rs) with
        | some (_, r) => some (skipExp (skipFrac r))
        | none => none := by
  obtain ⟨h1, h2, h3, h4, h5, h6, h7, _⟩ := digit_not_special h
  obtain ⟨h8, h9⟩ := digit_not_NI h
  rw [skipVal.eq_2]
  rw [skipWs_cons _ (digit_not_ws h)]
  simp only [if_neg h1, if_neg h2, if_neg h3, if_neg h4, if_neg h5, if_neg h6,
    if_neg h8, if_neg h9, if_neg h7, h, if_pos]

theorem skipVal_succ_quote (f : Nat) (rs : List Char) :
    skipVal (f+1) ('"' :: rs) = skipStr rs := by
  rw [skipVal.eq_2]
  rw [skipWs_cons _ (by decide)]
  simp only [show (('"' : Char) = 'n') = False from by decide,
    show (('"' : Char) = 't') = False from by decide,
    show (('"' : Char) = 'f') = False from by decide,
    show (('"' : Char) = '"') = True from by decide, if_true, if_false]

theorem skipVal_succ_minus (f : Nat) (rs : List Char) :
    skipVal (f+1) ('-' :: rs)
      = match parseNat rs with
        | some (_, r) => some (skipExp (skipFrac r))
        | none =>
          match rs with
          | 'I' :: 'n' :: 'f' :: 'i' :: 'n' :: 'i' :: 't' :: 'y' :: r => some r
          | _ => none := by
  rw [skipVal.eq_2]
  rw [skipWs_cons _ (by decide)]
  simp only [show (('-' : Char) = 'n') = False from by decide,
    show (('-' : Char) = 't') = False from by decide,
    show (('-' : Char) = 'f') = False from by decide,
    show (('-' : Char) = '"') = False from by decide,
    show (('-' : Char) = '[') = False from by decide,
    show (('-' : Char) = '\x7b') = False from by decide,
    show (('-' : Char) = 'N') = False from by decide,
    show (('-' : Char) = 'I') = False from by decide,
    show (('-' : Char) = '-') = True from by decide, if_true, if_false]

theorem skipVal_succ_lbracket (f : Nat) (rs : List Char) :
    skipVal (f+1) ('[' :: rs)
      = match skipWs rs with
        | [] => skipItems f []
        | c2 :: r2 =>
          if c2 = ']' then some r2
          else skipItems f (c2 :: r2) := by
  rw [skipVal.eq_2]
  rw [skipWs_cons _ (by decide)]
  simp only [show (('[' : Char) = 'n') = False from by decide,
    show (('[' : Char) = 't') = False from by decide,
    show (('[' : Char) = 'f') = False from by decide,
    show (('[' : Char) = '"') = False from by decide,
    show (('[' : Char) = '[') = True from by decide, if_true, if_false]

theorem skipVal_succ_lbrace (f : Nat) (rs : List Char) :
    skipVal (f+1) ('\x7b' :: rs)
      = match skipWs rs with
        | [] => skipMembers f []
        | c2 :: r2 =>
          if c2 = '\x7d' then some r2
          else skipMembers f (c2 :: r2) := by
  rw [skipVal.eq_2]
  rw [skipWs_cons _ (by decide)]
  simp only [show (('\x7b' : Char) = 'n') = False from by decide,
    show (('\x7b' : Char) = 't') = False from by decide,
    show (('\x7b' : Char) = 'f') = False from by decide,
    show (('\x7b' : Char) = '"') = False from by decide,
    show (('\x7b' : Char) = '[') = False from by decide,
    show (('\x7b' : Char) = '\x7b') = True from by decide, if_true, if_false]

theorem skipMembers_succ_quote (f : Nat) (r0 : List Char) :
    skipMembers (f+1) ('"' :: r0)
      = match skipStr r0 with
        | none => none
        | some r1 =>
          match skipWs r1 with
          | ':' :: r2 =>
            match skipVal f r2 with
            | none => none
            | some r3 =>
              match skipWs r3 with
              | [] => none
              | c :: r4 =>
                if c = '\x7d' then some r4
                else if c = ',' then skipMembers f r4
                else none
          | _ => none := by
  rw [skipMembers.eq_2]
  rw [skipWs_cons _ (by decide)]
  rfl

theorem skipVal_space (f : Nat) (l : List Char) : skipVal f (' ' :: l) = skipVal f l := by
  cases f with
  | zero => rfl
  | succ g =>
    simp only [skipVal.eq_2]
    rw [skipWs_space]

theorem skipItems_space (f : Nat) (l : List Char) :
    skipItems f (' ' :: l) = skipItems f l := by
  cases f with
  | zero => rfl
  | succ g =>
    simp only [skipItems.eq_2]
    rw [skipVal_space]

theorem skipMembers_space (f : Nat) (l : List Char) :
    skipMembers f (' ' :: l) = skipMembers f l := by
  cases f with
  | zero => rfl
  | succ g =>
    simp only [skipMembers.eq_2]
    rw [skipWs_space]

/-- The acceptance checker consumes exactly what the encoder produces:
simultaneously for values, array tails and object tails, by induction on
the fuel. -/
theorem skip_enc : ∀ f : Nat,
    (∀ v rest, (encVal v).length ≤ f → numStop rest →
      skipVal f (encVal v ++ rest) = some rest) ∧
    (∀ v vs rest, (encVal v).length + (encItems vs).length + 1 ≤ f →
      skipItems f (encVal v ++ (encItems vs ++ ']' :: rest)) = some rest) ∧
    (∀ k v kvs rest,
        (encMember (k, v)).length + (encMembers kvs).length + 1 ≤ f →
      skipMembers f (encMember (k, v) ++ (encMembers kvs ++ '\x7d' :: rest))
        = some rest) := by
  intro f
  induction f with
  | zero =>
    refine ⟨?_, ?_, ?_⟩
    · intro v rest hle _
      exact absurd hle (by have := encVal_length_pos v; omega)
    · intro v vs rest hle
      exact absurd hle (by omega)
    · intro k v kvs rest hle
      exact absurd hle (by omega)
  | succ f ih =>
    obtain ⟨ihP, ihQ, ihR⟩ := ih
    refine ⟨?_, ?_, ?_⟩
    · -- skipVal on an encoded value
      intro v rest hle hrest
      match v with
      | .null =>
        simp only [encVal, List.cons_append, List.nil_append]
        rw [skipVal.eq_2, skipWs_cons _ (by decide)]
        simp only [show (('n' : Char) = 'n') = True from by decide, if_true]
      | .bool true =>
        simp only [encVal, List.cons_append, List.nil_append]
        rw [skipVal.eq_2, skipWs_cons _ (by decide)]
        simp only [show (('t' : Char) = 'n') = False from by decide,
          show (('t' : Char) = 't') = True from by decide, if_true, if_false]
      | .bool false =>
        simp only [encVal, List.cons_append, List.nil_append]
        rw [skipVal.eq_2, skipWs_cons _ (by decide)]
        simp only [show (('f' : Char) = 'n') = False from by decide,
          show (('f' : Char) = 't') = False from by decide,
          show (('f' : Char) = 'f') = True from by decide, if_true, if_false]
      | .num (.ofNat m) =>
        simp only [encVal, intToChars]
        cases hd : natToDigits m with
        | nil => exact absurd hd (natToDigits_ne_nil m)
        | cons c t =>
          have hcd : c.isDigit = true := natToDigits_all_digits m c (by rw [hd]; simp)
          simp only [List.cons_append, skipVal_succ_digit f c _ hcd]
          rw [show c :: (t ++ rest) = (c :: t) ++ rest from rfl, ← hd,
            parseNat_enc m rest (numStop_notDigitHead hrest)]
          simp only [skipFrac_stop hrest, skipExp_stop hrest]
      | .num (.negSucc m) =>
        simp only [encVal, intToChars, List.cons_append]
        rw [skipVal_succ_minus, parseNat_enc (m+1) rest (numStop_notDigitHead hrest)]
        simp only [skipFrac_stop hrest, skipExp_stop hrest]
      | .str s =>
        simp only [encVal, encStr, List.cons_append, List.append_assoc,
          List.singleton_append]
        rw [skipVal_succ_quote, skipStr_esc]
        simp
      | .arr [] =>
        simp only [encVal, List.cons_append, List.nil_append]
        rw [skipVal_succ_lbracket, skipWs_rsqb]
        simp
      | .arr (v1 :: vs) =>
        have hsz : (encVal v1).length + (encItems vs).length + 1 ≤ f := by
          simp only [encVal, List.length_cons, List.length_append,
            List.length_singleton] at hle
          omega
        obtain ⟨c, t, hh, hwsc, hbr⟩ := encVal_head v1
        simp only [encVal, List.cons_append, List.append_assoc, List.singleton_append,
          List.nil_append]
        rw [skipVal_succ_lbracket, hh, List.cons_append, skipWs_cons _ hwsc]
        simp only [if_neg hbr]
        rw [← List.cons_append, ← hh, ihQ v1 vs rest hsz]
      | .obj [] =>
        simp only [encVal, List.cons_append, List.nil_append]
        rw [skipVal_succ_lbrace, skipWs_rbrace]
        simp
      | .obj ((k1, v1) :: kvs) =>
        have hsz : (encMember (k1, v1)).length + (encMembers kvs).length + 1 ≤ f := by
          simp only [encVal, List.length_cons, List.length_append,
            List.length_singleton] at hle
          omega
        simp only [encVal, List.cons_append, List.append_assoc, List.singleton_append,
          List.nil_append]
        rw [skipVal_succ_lbrace]
        rw [show encMember (k1, v1) ++ (encMembers kvs ++ '\x7d' :: rest)
              = '"' :: (escList k1.data ++ ('"' :: (':' :: (' ' :: (encVal v1
                ++ (encMembers kvs ++ '\x7d' :: rest)))))) from by
            simp [encMember, encStr]]
        rw [skipWs_cons _ (by decide)]
        simp only [show ¬('"' : Char) = '\x7d' from by decide, if_neg, if_false]
        rw [show '"' :: (escList k1.data ++ ('"' :: (':' :: (' ' :: (encVal v1
              ++ (encMembers kvs ++ '\x7d' :: rest))))))
            = encMember (k1, v1) ++ (encMembers kvs ++ '\x7d' :: rest) from by
            simp [encMember, encStr]]
        rw [ihR k1 v1 kvs rest hsz]
    · -- skipItems on encoded items
      intro v vs rest hle
      have hszv : (encVal v).length ≤ f := by omega
      rw [skipItems.eq_2, ihP v (encItems vs ++ ']' :: rest) hszv (ns_items vs rest)]
      cases vs with
      | nil =>
        simp only [encItems, List.nil_append]
        rw [skipWs_rsqb]
        simp
      | cons w ws =>
        have hszw : (encVal w).length + (encItems ws).length + 1 ≤ f := by
          simp only [encItems, List.length_cons, List.length_append] at hle
          omega
        simp only [encItems, List.cons_append, List.append_assoc]
        rw [skipWs_comma]
        simp only [show ¬(',' : Char) = ']' from by decide, if_neg, if_false, if_pos rfl]
        rw [skipItems_space, ihQ w ws rest hszw]
        simp
    · -- skipMembers on encoded members
      intro k v kvs rest hle
      have hszv : (encVal v).length ≤ f := by
        simp only [encMember, encStr, List.length_append, List.length_cons] at hle
        omega
      rw [show encMember (k, v) ++ (encMembers kvs ++ '\x7d' :: rest)
            = '"' :: (escList k.data ++ ('"' :: (':' :: (' ' :: (encVal v
              ++ (encMembers kvs ++ '\x7d' :: rest)))))) from by
          simp [encMember, encStr]]
      rw [skipMembers_succ_quote]
      rw [show escList k.data ++ ('"' :: (':' :: (' ' :: (encVal v
            ++ (encMembers kvs ++ '\x7d' :: rest)))))
          = escList k.data ++ '"' :: (':' :: (' ' :: (encVal v
            ++ (encMembers kvs ++ '\x7d' :: rest)))) from rfl]
      rw [skipStr_esc k.data]
      simp only [skipWs_colon]
      rw [skipVal_space, ihP v (encMembers kvs ++ '\x7d' :: rest) hszv
        (ns_members kvs rest)]
      cases kvs with
      | nil =>
        simp only [encMembers, List.nil_append]
        rw [skipWs_rbrace]
        simp
      | cons kv2 kvs2 =>
        match kv2 with
        | (k2, v2) =>
          have hszw : (encMember (k2, v2)).length + (encMembers kvs2).length + 1 ≤ f := by
            simp only [encMembers, List.length_cons, List.length_append] at hle
            omega
          simp only [encMembers, List.cons_append, List.append_assoc]
          rw [skipWs_comma]
          simp only [show ¬(',' : Char) = '\x7d' from by decide, if_neg, if_false,
            if_pos rfl]
          rw [skipMembers_space, ihR k2 v2 kvs2 rest hszw]
          simp

/-- The full grammar accepts every encoder output. -/
theorem accepts_dumps (v : JVal) : pyAccepts (dumps v) = true := by
  have h := (skip_enc (2 * (encVal v).length + 2)).1 v [] (by omega) trivial
  rw [List.append_nil] at h
  simp only [pyAccepts, dumps]
  rw [h]
  simp [skipWs]

/-- On encoder outputs the faithful decode recovers the encoded value. -/
theorem loadsPy_dumps (v : JVal) : loadsPy (dumps v) = some (some v) := by
  rw [loadsPy, if_pos (accepts_dumps v), loads_dumps]

/-- A float literal is a successful decode outside the modelled value
space, not a failure. -/
theorem loadsPy_float : loadsPy "1.5" = some none := rfl

/-- `NaN` likewise decodes successfully, to a float outside the space. -/
theorem loadsPy_nan : loadsPy "NaN" = some none := rfl

/-! ## The Backboard memory store and the cache state (`app/services/cache.py`)

`BackboardCache` keeps every cache entry as a memory record in a dedicated
cache-holder assistant.  The remote store of that assistant is modelled as a
list of memories plus a fresh-id counter standing for the remote id
generator; each cache operation runs against an `Env` carrying the current
`int(time.time())` and an oracle saying which remote calls (numbered from 0
within the operation) raise. -/

/-- `app.models.memory.Memory` restricted to the fields the cache reads. -/
structure Memory where
  id : Option String
  content : String
  metadata : Option (List (String × JVal))
  tags : List String

/-- The cache-holder assistant's remote memory store. -/
structure CState where
  mems : List Memory
  nextId : Nat

/-- Execution environment of one cache operation. -/
structure Env where
  now : Int
  fail : Nat → Bool

/-- No remote call raises during the operation. -/
def noFail (env : Env) : Prop := ∀ n, env.fail n = false

/-- Python truthiness of an optional string (`if memory.id:`). -/
def truthyOptStr : Option String → Bool
  | none => false
  | some s => !(s == "")

/-- `d.get(k)` on a Python dict modelled as an association list. -/
def mdGet (md : List (String × JVal)) (k : String) : Option JVal :=
  (md.find? (fun p => p.1 == k)).map (fun p => p.2)

/-- Python truthiness of a JSON value. -/
def pyTruthy : JVal → Bool
  | .null => false
  | .bool b => b
  | .num n => !(n == 0)
  | .str s => !(s == "")
  | .arr xs => !xs.isEmpty
  | .obj kvs => !kvs.isEmpty

/-- `memory.metadata and memory.metadata.get('cache_key') == key` (used by
`get` and `delete`).  Python `==` between a string and a non-string is
`False`, and an empty metadata dict is falsy. -/
def matchesKey (m : Memory) (key : String) : Bool :=
  match m.metadata with
  | none => false
  | some md =>
    !md.isEmpty &&
      (match mdGet md "cache_key" with
       | some (.str s) => s == key
       | _ => false)

/-- `memory.metadata and memory.metadata.get('cache_key')` (the guard of
`clear_expired`): the entry carries a truthy cache key. -/
def hasCacheKey (m : Memory) : Bool :=
  match m.metadata with
  | none => false
  | some md => !md.isEmpty && pyTruthy ((mdGet md "cache_key").getD .null)

/-- Using a metadata value in `int` arithmetic: succeeds for ints and bools
(Python treats `True`/`False` as 1/0) and raises `TypeError` otherwise. -/
def toInt : JVal → Option Int
  | .num n => some n
  | .bool b => some (if b then 1 else 0)
  | _ => none

/-- `int(ttl or BackboardCache.CACHE_TTL)`: a falsy ttl (absent or 0) falls
back to the 3600-second default. -/
def effTtl : Option Int → Int
  | none => 3600
  | some t => if t == 0 then 3600 else t

/-- Result of `json.loads(memory.content)` under the bare `except:` of
`BackboardCache.get`: the decoded value when it lies in the modelled value
space, an explicit out-of-space marker when the decode succeeds with a
float-containing result, or the raw content string when the decode raises. -/
inductive Decoded where
  | val : JVal → Decoded
  | outside : String → Decoded
  | raw : String → Decoded

/-- The Python value denoted by a decode result, when it lies in the
modelled value space (`.raw s` is Python returning the string `s` itself). -/
def Decoded.toVal : Decoded → Option JVal
  | .val v => some v
  | .raw s => some (.str s)
  | .outside _ => none

/-- `json.loads(memory.content)` under the bare `except:` that falls back to
the raw string (`BackboardCache.get`). -/
def pyLoads (content : String) : Decoded :=
  match loadsPy content with
  | some (some v) => .val v
  | some none => .outside content
  | none => .raw content

/-- The remote id assigned to the next stored memory. -/
def freshId (n : Nat) : String := "m" ++ ⟨natToDigits n⟩

/-- Remote `delete_memory`: removes the memory with the given id. -/
def removeId (i : String) (s : CState) : CState :=
  { s with mems := s.mems.filter (fun m => !(m.id == some i)) }

/-- The memory record written by `BackboardCache.set`: content is
`json.dumps(value)` — or the raw string when the value is already a `str` —
with the cache metadata and tags of `set`. -/
def mkCacheMem (env : Env) (key : String) (v : JVal) (ttl : Option Int) (n : Nat) : Memory :=
  { id := some (freshId n)
    content := match v with | .str str => str | other => dumps other
    metadata := some [("cache_key", .str key), ("cache_time", .num env.now),
      ("ttl", .num (effTtl ttl))]
    tags := ["cache", key] }

/-- Remote `add_memory` as invoked by `BackboardCache.set`. -/
def storeMem (env : Env) (key : String) (v : JVal) (ttl : Option Int) (s : CState) : CState :=
  { mems := s.mems ++ [mkCacheMem env key v ttl s.nextId]
    nextId := s.nextId + 1 }

/-- Result of the code inside a `try:` block: a normal value or a raised
exception, each with the remote-call counter and store state at that point. -/
def Raising (α : Type) := Except (Nat × CState) (α × Nat × CState)

/-- The deletion loop of `BackboardCache.delete`: iterate over the listed
snapshot, issuing one remote delete per matching memory with a truthy id. -/
def delLoop (env : Env) (key : String) : List Memory → Nat → CState → Raising Bool
  | [], c, s => .ok (true, c, s)
  | m :: rest, c, s =>
    if matchesKey m key then
      if truthyOptStr m.id then
        if env.fail c then .error (c+1, s)
        else delLoop env key rest (c+1) (removeId (m.id.getD "") s)
      else delLoop env key rest c s
    else delLoop env key rest c s

/-- Body of `delete` after the assistant-id lookup: one `list_memories`
call, then the deletion loop over the returned snapshot. -/
def deleteCoreRaw (env : Env) (key : String) (c : Nat) (s : CState) : Raising Bool :=
  if env.fail c then .error (c+1, s)
  else delLoop env key s.mems (c+1) s

/-- The nested `self.delete(key)` call inside `get` and `set`: the callee's
own `try/except` swallows any exception and yields `False`.  (During a
running operation the cache-assistant id is already cached on the instance,
so the nested call performs no extra assistant lookup.) -/
def deleteCoreCaught (env : Env) (key : String) (c : Nat) (s : CState) : Bool × Nat × CState :=
  match deleteCoreRaw env key c s with
  | .ok r => r
  | .error (c2, s2) => (false, c2, s2)

/-- Code inside the `try:` of `BackboardCache.delete`: resolve the cache
assistant (one remote call), then run the core. -/
def deleteRaw (env : Env) (key : String) (s : CState) : Raising Bool :=
  if env.fail 0 then .error (1, s)
  else deleteCoreRaw env key 1 s

/-- `BackboardCache.delete(key)`: returns `False` when the body raises. -/
def deleteOp (env : Env) (key : String) (s : CState) : Bool × CState :=
  match deleteRaw env key s with
  | .ok (b, _, s2) => (b, s2)
  | .error (_, s2) => (false, s2)

/-- The scan loop of `BackboardCache.get`: on each snapshot entry matching
`cache_key`, evaluate `int(time.time()) - cache_time < cache_ttl` (a
`TypeError` on non-numeric metadata raises out of the loop); if fresh,
return the JSON-decoded content; if expired, run the nested `delete` and
keep scanning the stale snapshot. -/
def getLoop (env : Env) (key : String) (ttl : Option Int) :
    List Memory → Nat → CState → Raising (Option Decoded)
  | [], c, s => .ok (none, c, s)
  | m :: rest, c, s =>
    if matchesKey m key then
      match toInt ((mdGet (m.metadata.getD []) "cache_time").getD (.num 0)),
          toInt ((mdGet (m.metadata.getD []) "ttl").getD (.num (effTtl ttl))) with
      | some t, some ttlv =>
        if env.now - t < ttlv then .ok (some (pyLoads m.content), c, s)
        else
          match deleteCoreCaught env key c s with
          | (_, c2, s2) => getLoop env key ttl rest c2 s2
      | _, _ => .error (c, s)
    else getLoop env key ttl rest c s

/-- Code inside the `try:` of `BackboardCache.get`: assistant lookup, one
`list_memories` call, then the scan loop. -/
def getRaw (env : Env) (key : String) (ttl : Option Int) (s : CState) :
    Raising (Option Decoded) :=
  if env.fail 0 then .error (1, s)
  else if env.fail 1 then .error (2, s)
  else getLoop env key ttl s.mems 2 s

/-- `BackboardCache.get(key, ttl=None)`: returns `None` when the body raises. -/
def getOp (env : Env) (key : String) (ttl : Option Int) (s : CState) :
    Option Decoded × CState :=
  match getRaw env key ttl s with
  | .ok (r, _, s2) => (r, s2)
  | .error (_, s2) => (none, s2)

/-- Code inside the `try:` of `BackboardCache.set`: assistant lookup, nested
`self.delete(key)` (whose failures are swallowed by the callee), then one
`store_memory` call. -/
def setRaw (env : Env) (key : String) (v : JVal) (ttl : Option Int) (s : CState) :
    Raising Bool :=
  if env.fail 0 then .error (1, s)
  else
    match deleteCoreCaught env key 1 s with
    | (_, c1, s1) =>
      if env.fail c1 then .error (c1+1, s1)
      else .ok (true, c1+1, storeMem env key v ttl s1)

/-- `BackboardCache.set(key, value, ttl=None)`: returns `False` when the
body raises. -/
def setOp (env : Env) (key : String) (v : JVal) (ttl : Option Int) (s : CState) :
    Bool × CState :=
  match setRaw env key v ttl s with
  | .ok (b, _, s2) => (b, s2)
  | .error (_, s2) => (false, s2)

/-- The scan loop of `BackboardCache.clear_expired`: for every snapshot
entry with a truthy `cache_key`, compare `current_time - cache_time >=
cache_ttl` (a `TypeError` raises out of the loop), and delete-and-count the
expired ones with a truthy id. -/
def ceLoop (env : Env) : List Memory → Nat → Nat → CState → Raising Nat
  | [], c, cnt, s => .ok (cnt, c, s)
  | m :: rest, c, cnt, s =>
    if hasCacheKey m then
      match toInt ((mdGet (m.metadata.getD []) "cache_time").getD (.num 0)),
          toInt ((mdGet (m.metadata.getD []) "ttl").getD (.num 3600)) with
      | some t, some ttlv =>
        if env.now - t ≥ ttlv then
          if truthyOptStr m.id then
            if env.fail c then .error (c+1, s)
            else ceLoop env rest (c+1) (cnt+1) (removeId (m.id.getD "") s)
          else ceLoop env rest c cnt s
        else ceLoop env rest c cnt s
      | _, _ => .error (c, s)
    else ceLoop env rest c cnt s

/-- Code inside the `try:` of `BackboardCache.clear_expired`. -/
def clearRaw (env : Env) (s : CState) : Raising Nat :=
  if env.fail 0 then .error (1, s)
  else if env.fail 1 then .error (2, s)
  else ceLoop env s.mems 2 0 s

/-- `BackboardCache.clear_expired()`: returns `0` when the body raises. -/
def clearOp (env : Env) (s : CState) : Nat × CState :=
  match clearRaw env s with
  | .ok (n, _, s2) => (n, s2)
  | .error (_, s2) => (0, s2)

/-- Well-formedness of the remote store: every memory has a truthy remote
id, ids are pairwise distinct, and the next generated id is fresh. -/
def WFState (s : CState) : Prop :=
  (∀ m ∈ s.mems, truthyOptStr m.id = true) ∧
  (s.mems.map (fun m => m.id)).Nodup ∧
  (∀ m ∈ s.mems, m.id ≠ some (freshId s.nextId))

/-- A value survives `get`'s decode attempt: anything but a string, or a
string on which `json.loads` raises. -/
def jsonSafe : JVal → Prop
  | .str str => pyAccepts str = false
  | _ => True

/-- What `get` hands back for a value that survives its decode attempt: a
stored non-string value is decoded back from its `json.dumps` encoding; a
stored raw string on which `json.loads` raises comes back as the raw
content. -/
def echoOf : JVal → Decoded
  | .str s => .raw s
  | v => .val v

/-! ### Characterizing the deletion loop -/

/-- Ids of the snapshot entries that the deletion loop removes. -/
def delIds (key : String) (l : List Memory) : List (Option String) :=
  (l.filter (fun m => matchesKey m key && truthyOptStr m.id)).map (fun m => m.id)

theorem truthyOptStr_spec {o : Option String} (h : truthyOptStr o = true) :
    ∃ i, o = some i ∧ i ≠ "" := by
  cases o with
  | none => simp [truthyOptStr] at h
  | some s =>
    refine ⟨s, rfl, ?_⟩
    simp [truthyOptStr] at h
    simpa using h

theorem delLoop_noFail (env : Env) (key : String) (h : noFail env) :
    ∀ l c s, ∃ c2, delLoop env key l c s
      = .ok (true, c2,
          { s with mems := s.mems.filter (fun m => !((delIds key l).contains m.id)) }) := by
  intro l
  induction l with
  | nil =>
    intro c s
    refine ⟨c, ?_⟩
    simp [delLoop, delIds, List.filter_true]
  | cons m rest ih =>
    intro c s
    by_cases hm : matchesKey m key
    · by_cases hid : truthyOptStr m.id
      · obtain ⟨i0, hi0, _⟩ := truthyOptStr_spec hid
        obtain ⟨c2, hrec⟩ := ih (c+1) (removeId (m.id.getD "") s)
        refine ⟨c2, ?_⟩
        simp only [delLoop, hm, hid, if_true, h c, Bool.false_eq_true, if_false, hrec]
        have hdel : delIds key (m :: rest) = m.id :: delIds key rest := by
          simp [delIds, List.filter_cons, hm, hid]
        rw [hdel]
        have hmems : (removeId (m.id.getD "") s).mems.filter
              (fun x => !((delIds key rest).contains x.id))
            = s.mems.filter (fun x => !((m.id :: delIds key rest).contains x.id)) := by
          simp only [removeId, List.filter_filter]
          refine List.filter_congr ?_
          intro x _
          rw [hi0]
          simp only [Option.getD_some, List.contains_cons, Bool.not_or]
          rw [Bool.and_comm]
        rw [show removeId (m.id.getD "") s
              = { s with mems := (removeId (m.id.getD "") s).mems } from rfl] at hrec ⊢
        simp only [removeId] at hmems ⊢
        rw [hmems]
      · obtain ⟨c2, hrec⟩ := ih c s
        refine ⟨c2, ?_⟩
        simp only [delLoop, hm, hid, Bool.false_eq_true, if_false, if_true, hrec]
        have hdel : delIds key (m :: rest) = delIds key rest := by
          simp [delIds, List.filter_cons, hm, hid]
        rw [hdel]
    · obtain ⟨c2, hrec⟩ := ih c s
      refine ⟨c2, ?_⟩
      simp only [delLoop, hm, Bool.false_eq_true, if_false, hrec]
      have hdel : delIds key (m :: rest) = delIds key rest := by
        simp [delIds, List.filter_cons, hm]
      rw [hdel]

theorem delIds_contains (key : String) (l : List Memory) (x : Memory) (hx : x ∈ l)
    (W2 : (l.map (fun m => m.id)).Nodup) :
    (delIds key l).contains x.id = (matchesKey x key && truthyOptStr x.id) := by
  by_cases hm : (matchesKey x key && truthyOptStr x.id) = true
  · rw [hm]
    rw [List.contains_iff_exists_mem_beq]
    obtain ⟨hm1, hm2⟩ := Bool.and_eq_true_iff.mp hm
    refine ⟨x.id, ?_, by simp⟩
    simp only [delIds, List.mem_map, List.mem_filter]
    exact ⟨x, ⟨hx, by rw [hm1, hm2]; simp⟩, rfl⟩
  · simp only [Bool.not_eq_true] at hm
    rw [hm]
    by_cases hc : (delIds key l).contains x.id = true
    · exfalso
      rw [List.contains_iff_exists_mem_beq] at hc
      obtain ⟨a, ha, hbeq⟩ := hc
      simp only [delIds, List.mem_map, List.mem_filter] at ha
      obtain ⟨y, ⟨hyl, hym⟩, hya⟩ := ha
      have hxy : x.id = y.id := by
        rw [← hya] at hbeq
        exact eq_of_beq hbeq
      have : y = x := List.inj_on_of_nodup_map W2 hyl hx hxy.symm
      rw [this] at hym
      rw [hym] at hm
      simp at hm
    · simpa using hc

theorem deleteCoreCaught_noFail (env : Env) (key : String) (h : noFail env)
    (c : Nat) (s : CState)
    (W1 : ∀ m ∈ s.mems, truthyOptStr m.id = true)
    (W2 : (s.mems.map (fun m => m.id)).Nodup) :
    ∃ c2, deleteCoreCaught env key c s
      = (true, c2, { s with mems := s.mems.filter (fun m => !(matchesKey m key)) }) := by
  obtain ⟨c2, hloop⟩ := delLoop_noFail env key h s.mems (c+1) s
  refine ⟨c2, ?_⟩
  simp only [deleteCoreCaught, deleteCoreRaw, h c, Bool.false_eq_true, if_false, hloop]
  have : s.mems.filter (fun m => !((delIds key s.mems).contains m.id))
      = s.mems.filter (fun m => !(matchesKey m key)) := by
    refine List.filter_congr ?_
    intro x hxm
    rw [delIds_contains key s.mems x hxm W2, W1 x hxm, Bool.and_true]
  rw [this]

/-! ### Characterizing `set` and `get` under a failure-free remote -/

theorem freshId_data (n : Nat) : (freshId n).data = 'm' :: natToDigits n := by
  simp [freshId]

theorem freshId_ne_empty (n : Nat) : freshId n ≠ "" := by
  intro h
  have h2 := congrArg String.data h
  rw [freshId_data] at h2
  simp at h2

theorem freshId_truthy (n : Nat) : truthyOptStr (some (freshId n)) = true := by
  simp [truthyOptStr, freshId_ne_empty n]

theorem setOp_noFail (env : Env) (key : String) (v : JVal) (ttl : Option Int)
    (s : CState) (h : noFail env)
    (W1 : ∀ m ∈ s.mems, truthyOptStr m.id = true)
    (W2 : (s.mems.map (fun m => m.id)).Nodup) :
    setOp env key v ttl s
      = (true, storeMem env key v ttl
          { s with mems := s.mems.filter (fun m => !(matchesKey m key)) }) := by
  obtain ⟨c2, hdel⟩ := deleteCoreCaught_noFail env key h 1 s W1 W2
  simp only [setOp, setRaw, h 0, Bool.false_eq_true, if_false, hdel, h c2]

theorem getLoop_skip (env : Env) (key : String) (ttl : Option Int) :
    ∀ l l2 c s, (∀ m ∈ l, matchesKey m key = false) →
      getLoop env key ttl (l ++ l2) c s = getLoop env key ttl l2 c s := by
  intro l
  induction l with
  | nil => intro l2 c s _; simp
  | cons m rest ih =>
    intro l2 c s hnm
    have hm : matchesKey m key = false := hnm m (by simp)
    simp only [List.cons_append, getLoop, hm, Bool.false_eq_true, if_false]
    exact ih l2 c s (fun x hx => hnm x (by simp [hx]))

theorem matchesKey_mkCacheMem (env : Env) (key : String) (v : JVal) (ttl : Option Int)
    (n : Nat) : matchesKey (mkCacheMem env key v ttl n) key = true := by
  simp [mkCacheMem, matchesKey, mdGet, List.find?]

theorem mdGet_mkCacheMem_time (env : Env) (key : String) (v : JVal) (ttl : Option Int)
    (n : Nat) :
    mdGet ((mkCacheMem env key v ttl n).metadata.getD []) "cache_time"
      = some (.num env.now) := by
  simp [mkCacheMem, mdGet, List.find?]

theorem mdGet_mkCacheMem_ttl (env : Env) (key : String) (v : JVal) (ttl : Option Int)
    (n : Nat) :
    mdGet ((mkCacheMem env key v ttl n).metadata.getD []) "ttl"
      = some (.num (effTtl ttl)) := by
  simp [mkCacheMem, mdGet, List.find?]

theorem pyLoads_mkCacheMem (env : Env) (key : String) (v : JVal) (ttl : Option Int)
    (n : Nat) (hv : jsonSafe v) :
    pyLoads (mkCacheMem env key v ttl n).content = echoOf v := by
  match v with
  | .str str =>
    simp only [jsonSafe] at hv
    simp [mkCacheMem, pyLoads, loadsPy, echoOf, hv]
  | .null => simp [mkCacheMem, pyLoads, loadsPy_dumps, echoOf]
  | .bool b => simp [mkCacheMem, pyLoads, loadsPy_dumps, echoOf]
  | .num m => simp [mkCacheMem, pyLoads, loadsPy_dumps, echoOf]
  | .arr xs => simp [mkCacheMem, pyLoads, loadsPy_dumps, echoOf]
  | .obj kvs => simp [mkCacheMem, pyLoads, loadsPy_dumps, echoOf]

theorem mems_filter_eq_self_of_nonmatching (key : String) (l : List Memory)
    (h : ∀ m ∈ l, matchesKey m key = false) :
    l.filter (fun m => !(matchesKey m key)) = l := by
  rw [List.filter_eq_self]
  intro m hm
  simp [h m hm]

theorem setOp_state (env : Env) (key : String) (v : JVal) (ttl : Option Int)
    (s : CState) (h : noFail env)
    (W1 : ∀ m ∈ s.mems, truthyOptStr m.id = true)
    (W2 : (s.mems.map (fun m => m.id)).Nodup) :
    setOp env key v ttl s
      = (true, { mems := s.mems.filter (fun m => !(matchesKey m key))
                   ++ [mkCacheMem env key v ttl s.nextId]
                 nextId := s.nextId + 1 }) := by
  rw [setOp_noFail env key v ttl s h W1 W2]
  rfl

theorem getOp_after_set (env env2 : Env) (key : String) (v : JVal)
    (ttl ttl2 : Option Int) (s : CState) (h : noFail env) (h2 : noFail env2)
    (W : WFState s) :
    getOp env2 key ttl2 (setOp env key v ttl s).2
      = if env2.now - env.now < effTtl ttl
        then (some (pyLoads (mkCacheMem env key v ttl s.nextId).content),
              (setOp env key v ttl s).2)
        else (none, { mems := s.mems.filter (fun m => !(matchesKey m key))
                      nextId := s.nextId + 1 }) := by
  obtain ⟨W1, W2, W3⟩ := W
  rw [setOp_state env key v ttl s h W1 W2]
  have hFnm : ∀ m ∈ s.mems.filter (fun m => !(matchesKey m key)),
      matchesKey m key = false := by
    intro m hm
    have := (List.mem_filter.mp hm).2
    simpa using this
  simp only [getOp, getRaw, h2 0, h2 1, Bool.false_eq_true, if_false]
  rw [getLoop_skip env2 key ttl2 _ _ 2 _ hFnm]
  simp only [getLoop, matchesKey_mkCacheMem, if_true, mdGet_mkCacheMem_time,
    mdGet_mkCacheMem_ttl, Option.getD_some, toInt]
  by_cases hfresh : env2.now - env.now < effTtl ttl
  · simp only [hfresh, if_true, if_pos hfresh]
  · simp only [hfresh, if_false, if_neg hfresh]
    have hW1' : ∀ m ∈ (s.mems.filter (fun m => !(matchesKey m key))
        ++ [mkCacheMem env key v ttl s.nextId]), truthyOptStr m.id = true := by
      intro m hm
      rcases List.mem_append.mp hm with hm2 | hm2
      · exact W1 m (List.mem_of_mem_filter hm2)
      · rw [List.mem_singleton.mp hm2]
        exact freshId_truthy s.nextId
    have hW2' : ((s.mems.filter (fun m => !(matchesKey m key))
        ++ [mkCacheMem env key v ttl s.nextId]).map (fun m => m.id)).Nodup := by
      rw [List.map_append, List.nodup_append]
      refine ⟨((List.filter_sublist s.mems).map (fun m => m.id)).nodup W2, by simp, ?_⟩
      intro a ha
      simp only [List.map_cons, List.map_nil, List.mem_singleton]
      intro hcon
      simp only [List.mem_map] at ha
      obtain ⟨m, hmF, hid⟩ := ha
      refine W3 m (List.mem_of_mem_filter hmF) ?_
      rw [hid, hcon]
      rfl
    obtain ⟨c2, hdel⟩ := deleteCoreCaught_noFail env2 key h2 2
      ⟨s.mems.filter (fun m => !(matchesKey m key))
        ++ [mkCacheMem env key v ttl s.nextId], s.nextId + 1⟩ hW1' hW2'
    rw [hdel]
    simp only [getLoop]
    congr 1
    simp only [List.filter_append]
    rw [mems_filter_eq_self_of_nonmatching key _ hFnm]
    simp [matchesKey_mkCacheMem]
/-- C1 (amended): for a failure-free remote, a well-formed store, and a
value that survives `get`'s JSON-decode attempt (any non-string value, or a
string on which `json.loads` raises), `set` then `get` within the stored
ttl returns a value deep-equal to the original — the decoded value itself
for a non-string, the raw stored string otherwise — with the store
unchanged by the `get`. -/
theorem cache_set_get_roundtrip (env env2 : Env) (key : String) (v : JVal)
    (ttl ttl2 : Option Int) (s : CState) (h : noFail env) (h2 : noFail env2)
    (W : WFState s) (hv : jsonSafe v) (hfresh : env2.now - env.now < effTtl ttl) :
    getOp env2 key ttl2 (setOp env key v ttl s).2
      = (some (echoOf v), (setOp env key v ttl s).2)
    ∧ (echoOf v).toVal = some v := by
  constructor
  · rw [getOp_after_set env env2 key v ttl ttl2 s h h2 W, if_pos hfresh,
      pyLoads_mkCacheMem env key v ttl s.nextId hv]
  · match v with
    | .str s2 => rfl
    | .null => rfl
    | .bool b => rfl
    | .num n => rfl
    | .arr l => rfl
    | .obj l => rfl

theorem cache_set_get_roundtrip_witness :
    (getOp ⟨5, fun _ => false⟩ "k" none
        (setOp ⟨0, fun _ => false⟩ "k" (.num 7) (some 100) ⟨[], 0⟩).2
      = (some (echoOf (.num 7)),
         (setOp ⟨0, fun _ => false⟩ "k" (.num 7) (some 100) ⟨[], 0⟩).2))
    ∧ (echoOf (.num 7)).toVal = some (.num 7) :=
  cache_set_get_roundtrip ⟨0, fun _ => false⟩ ⟨5, fun _ => false⟩ "k" (.num 7)
    (some 100) none ⟨[], 0⟩ (fun _ => rfl) (fun _ => rfl)
    ⟨by simp, by simp, by simp⟩ trivial (by decide)

/-- C1 (counterexample): storing the string `"1"` keeps it raw, and `get`
JSON-decodes it into the integer `1`, which is not deep-equal to `"1"`. -/
theorem cache_set_get_roundtrip_counterexample :
    (getOp ⟨0, fun _ => false⟩ "k" none
        (setOp ⟨0, fun _ => false⟩ "k" (.str "1") (some 100) ⟨[], 0⟩).2).1
      = some (.val (.num 1))
    ∧ (Decoded.val (.num 1)).toVal ≠ some (JVal.str "1") :=
  ⟨rfl, fun hcon => by simp [Decoded.toVal] at hcon⟩
/-- C2 (amended): with a failure-free remote and a well-formed store, once
the entry's effective ttl (`int(ttl)` for a truthy ttl argument, the 3600
default otherwise) has elapsed since `set`, `get` returns absent, deletes
the expired entry, and afterwards no memory whose metadata `cache_key`
equals the key remains in the cache-holder store. -/
theorem cache_get_expired (env env2 : Env) (key : String) (v : JVal)
    (ttl ttl2 : Option Int) (s : CState) (h : noFail env) (h2 : noFail env2)
    (W : WFState s) (hexp : effTtl ttl ≤ env2.now - env.now) :
    (getOp env2 key ttl2 (setOp env key v ttl s).2).1 = none ∧
    ∀ m ∈ (getOp env2 key ttl2 (setOp env key v ttl s).2).2.mems,
      matchesKey m key = false := by
  rw [getOp_after_set env env2 key v ttl ttl2 s h h2 W, if_neg (not_lt.mpr hexp)]
  refine ⟨rfl, ?_⟩
  intro m hm
  have := (List.mem_filter.mp hm).2
  simpa using this

theorem cache_get_expired_witness :
    (getOp ⟨100, fun _ => false⟩ "k" none
        (setOp ⟨0, fun _ => false⟩ "k" (.num 7) (some 100) ⟨[], 0⟩).2).1 = none ∧
    ∀ m ∈ (getOp ⟨100, fun _ => false⟩ "k" none
        (setOp ⟨0, fun _ => false⟩ "k" (.num 7) (some 100) ⟨[], 0⟩).2).2.mems,
      matchesKey m "k" = false :=
  cache_get_expired ⟨0, fun _ => false⟩ ⟨100, fun _ => false⟩ "k" (.num 7)
    (some 100) none ⟨[], 0⟩ (fun _ => rfl) (fun _ => rfl)
    ⟨by simp, by simp, by simp⟩ (by decide)

/-- C2 (counterexample): with `ttl = 0` the stored ttl is the 3600-second
default (`ttl or CACHE_TTL` treats 0 as falsy), so at a time where `now -
cache_time >= ttl` holds for the ttl argument (0 ≥ 0) the claim demands a
miss, but `get` still returns the value. -/
theorem cache_get_expired_counterexample :
    (getOp ⟨0, fun _ => false⟩ "k" none
        (setOp ⟨0, fun _ => false⟩ "k" (.num 7) (some 0) ⟨[], 0⟩).2).1
      = some (.val (.num 7)) ∧ (0 : Int) - 0 ≥ 0 :=
  ⟨rfl, by decide⟩
/-! ### Error swallowing (C4) and delete idempotence (C7) -/

/-- C4: the cache operations never raise to their caller: whenever the code
inside an operation's `try:` block raises - at whatever point, for whatever
remote failure - the operation returns its degraded value (`None`, `False`,
`False`, `0` respectively) instead of propagating; in particular a failure
of the very first remote call degrades every operation with the store
untouched. -/
theorem cache_ops_never_raise (env : Env) (key : String) (v : JVal)
    (ttl : Option Int) (s : CState) :
    (∀ c2 s2, getRaw env key ttl s = .error (c2, s2) →
      getOp env key ttl s = (none, s2)) ∧
    (∀ c2 s2, setRaw env key v ttl s = .error (c2, s2) →
      setOp env key v ttl s = (false, s2)) ∧
    (∀ c2 s2, deleteRaw env key s = .error (c2, s2) →
      deleteOp env key s = (false, s2)) ∧
    (∀ c2 s2, clearRaw env s = .error (c2, s2) →
      clearOp env s = (0, s2)) ∧
    (env.fail 0 = true →
      getOp env key ttl s = (none, s) ∧ setOp env key v ttl s = (false, s) ∧
      deleteOp env key s = (false, s) ∧ clearOp env s = (0, s)) := by
  refine ⟨?_, ?_, ?_, ?_, ?_⟩
  · intro c2 s2 hr
    simp [getOp, hr]
  · intro c2 s2 hr
    simp [setOp, hr]
  · intro c2 s2 hr
    simp [deleteOp, hr]
  · intro c2 s2 hr
    simp [clearOp, hr]
  · intro h0
    refine ⟨?_, ?_, ?_, ?_⟩
    · simp [getOp, getRaw, h0]
    · simp [setOp, setRaw, h0]
    · simp [deleteOp, deleteRaw, h0]
    · simp [clearOp, clearRaw, h0]

theorem cache_ops_never_raise_witness :
    getOp ⟨0, fun _ => true⟩ "k" none ⟨[], 0⟩ = (none, ⟨[], 0⟩) ∧
    setOp ⟨0, fun _ => true⟩ "k" (.num 1) none ⟨[], 0⟩ = (false, ⟨[], 0⟩) ∧
    deleteOp ⟨0, fun _ => true⟩ "k" ⟨[], 0⟩ = (false, ⟨[], 0⟩) ∧
    clearOp ⟨0, fun _ => true⟩ ⟨[], 0⟩ = (0, ⟨[], 0⟩) :=
  (cache_ops_never_raise ⟨0, fun _ => true⟩ "k" (.num 1) none ⟨[], 0⟩).2.2.2.2 rfl

theorem delLoop_nomatch (env : Env) (key : String) :
    ∀ l c s, (∀ m ∈ l, matchesKey m key = false) →
      delLoop env key l c s = .ok (true, c, s) := by
  intro l
  induction l with
  | nil => intro c s _; rfl
  | cons m rest ih =>
    intro c s hnm
    have hm : matchesKey m key = false := hnm m (by simp)
    simp only [delLoop, hm, Bool.false_eq_true, if_false]
    exact ih c s (fun x hx => hnm x (by simp [hx]))

/-- `delete` under a failure-free remote, on a well-formed store: succeeds
and removes exactly the matching entries. -/
theorem deleteOp_noFail (env : Env) (key : String) (s : CState) (h : noFail env)
    (W1 : ∀ m ∈ s.mems, truthyOptStr m.id = true)
    (W2 : (s.mems.map (fun m => m.id)).Nodup) :
    deleteOp env key s
      = (true, { s with mems := s.mems.filter (fun m => !(matchesKey m key)) }) := by
  obtain ⟨c2, hloop⟩ := delLoop_noFail env key h s.mems 2 s
  simp only [deleteOp, deleteRaw, deleteCoreRaw, h 0, h 1, Bool.false_eq_true,
    if_false, hloop]
  have heq : s.mems.filter (fun m => !((delIds key s.mems).contains m.id))
      = s.mems.filter (fun m => !(matchesKey m key)) := by
    refine List.filter_congr ?_
    intro x hxm
    rw [delIds_contains key s.mems x hxm W2, W1 x hxm, Bool.and_true]
  rw [heq]

/-- C7: `delete` is idempotent: when no entry matches the key it returns
`True` and leaves the store unchanged, and deleting twice yields the same
result and final store as deleting once. -/
theorem cache_delete_idempotent (env env2 : Env) (key : String) (s : CState)
    (h : noFail env) (h2 : noFail env2) (W : WFState s) :
    ((∀ m ∈ s.mems, matchesKey m key = false) → deleteOp env key s = (true, s)) ∧
    deleteOp env2 key (deleteOp env key s).2 = (true, (deleteOp env key s).2) := by
  constructor
  · intro hnm
    simp only [deleteOp, deleteRaw, deleteCoreRaw, h 0, h 1, Bool.false_eq_true,
      if_false, delLoop_nomatch env key s.mems 2 s hnm]
  · rw [deleteOp_noFail env key s h W.1 W.2.1]
    have hnm : ∀ m ∈ s.mems.filter (fun m => !(matchesKey m key)),
        matchesKey m key = false := by
      intro m hm
      have := (List.mem_filter.mp hm).2
      simpa using this
    simp only [deleteOp, deleteRaw, deleteCoreRaw, h2 0, h2 1, Bool.false_eq_true,
      if_false, delLoop_nomatch env2 key _ 2 _ hnm]

theorem cache_delete_idempotent_witness :
    deleteOp ⟨0, fun _ => false⟩ "k" (deleteOp ⟨0, fun _ => false⟩ "k" ⟨[], 0⟩).2
      = (true, (deleteOp ⟨0, fun _ => false⟩ "k" ⟨[], 0⟩).2) :=
  (cache_delete_idempotent ⟨0, fun _ => false⟩ ⟨0, fun _ => false⟩ "k" ⟨[], 0⟩
    (fun _ => rfl) (fun _ => rfl) ⟨by simp, by simp, by simp⟩).2

/-! ### `clear_expired` (C3) -/

/-- A memory that `clear_expired` regards as an expired cache entry: truthy
`cache_key` and `now - cache_time >= ttl` for its own (defaulted) metadata. -/
def expiredCache (env : Env) (m : Memory) : Bool :=
  hasCacheKey m &&
    (match toInt ((mdGet (m.metadata.getD []) "cache_time").getD (.num 0)),
        toInt ((mdGet (m.metadata.getD []) "ttl").getD (.num 3600)) with
     | some t, some ttlv => decide (env.now - t ≥ ttlv)
     | _, _ => false)

/-- Every cache entry carries arithmetic-compatible `cache_time`/`ttl`
metadata (otherwise the scan raises `TypeError` midway). -/
def WTState (s : CState) : Prop :=
  ∀ m ∈ s.mems, hasCacheKey m = true →
    (toInt ((mdGet (m.metadata.getD []) "cache_time").getD (.num 0))).isSome = true ∧
    (toInt ((mdGet (m.metadata.getD []) "ttl").getD (.num 3600))).isSome = true

/-- Ids removed by the `clear_expired` scan. -/
def ceIds (env : Env) (l : List Memory) : List (Option String) :=
  (l.filter (fun m => expiredCache env m && truthyOptStr m.id)).map (fun m => m.id)

theorem ceLoop_noFail (env : Env) (h : noFail env) :
    ∀ l c cnt s,
      (∀ m ∈ l, hasCacheKey m = true →
        (toInt ((mdGet (m.metadata.getD []) "cache_time").getD (.num 0))).isSome = true ∧
        (toInt ((mdGet (m.metadata.getD []) "ttl").getD (.num 3600))).isSome = true) →
      ∃ c2, ceLoop env l c cnt s
        = .ok (cnt + (l.filter (fun m => expiredCache env m && truthyOptStr m.id)).length,
            c2, { s with mems := s.mems.filter (fun m => !((ceIds env l).contains m.id)) }) := by
  intro l
  induction l with
  | nil =>
    intro c cnt s _
    refine ⟨c, ?_⟩
    simp [ceLoop, ceIds, List.filter_true]
  | cons m rest ih =>
    intro c cnt s hwt
    by_cases hck : hasCacheKey m = true
    · obtain ⟨ht1, ht2⟩ := hwt m (by simp) hck
      obtain ⟨t, ht⟩ := Option.isSome_iff_exists.mp ht1
      obtain ⟨ttlv, htt⟩ := Option.isSome_iff_exists.mp ht2
      have hexp : expiredCache env m
          = decide (env.now - t ≥ ttlv) := by
        simp [expiredCache, hck, ht, htt]
      by_cases he : env.now - t ≥ ttlv
      · by_cases hid : truthyOptStr m.id = true
        · obtain ⟨i0, hi0, _⟩ := truthyOptStr_spec hid
          obtain ⟨c2, hrec⟩ := ih (c+1) (cnt+1) (removeId (m.id.getD "") s)
            (fun x hx => hwt x (by simp [hx]))
          refine ⟨c2, ?_⟩
          simp only [ceLoop, hck, if_true, ht, htt, if_pos he, hid, h c,
            Bool.false_eq_true, if_false, hrec]
          have hfl : (m :: rest).filter (fun m => expiredCache env m && truthyOptStr m.id)
              = m :: rest.filter (fun m => expiredCache env m && truthyOptStr m.id) := by
            simp [List.filter_cons, hexp, he, hid]
          have hids : ceIds env (m :: rest) = m.id :: ceIds env rest := by
            simp [ceIds, hfl]
          rw [hfl, hids]
          have hmems : (removeId (m.id.getD "") s).mems.filter
                (fun x => !((ceIds env rest).contains x.id))
              = s.mems.filter (fun x => !((m.id :: ceIds env rest).contains x.id)) := by
            simp only [removeId, List.filter_filter]
            refine List.filter_congr ?_
            intro x _
            rw [hi0]
            simp only [Option.getD_some, List.contains_cons, Bool.not_or]
            rw [Bool.and_comm]
          simp only [removeId] at hmems ⊢
          rw [hmems]
          simp only [List.length_cons]
          have hcnt : cnt + 1 + (rest.filter
              (fun m => expiredCache env m && truthyOptStr m.id)).length
            = cnt + ((rest.filter
              (fun m => expiredCache env m && truthyOptStr m.id)).length + 1) := by
            omega
          rw [hcnt]
        · simp only [Bool.not_eq_true] at hid
          obtain ⟨c2, hrec⟩ := ih c cnt s (fun x hx => hwt x (by simp [hx]))
          refine ⟨c2, ?_⟩
          simp only [ceLoop, hck, if_true, ht, htt, if_pos he, hid,
            Bool.false_eq_true, if_false, hrec]
          have hfl : (m :: rest).filter (fun m => expiredCache env m && truthyOptStr m.id)
              = rest.filter (fun m => expiredCache env m && truthyOptStr m.id) := by
            simp [List.filter_cons, hid]
          have hids : ceIds env (m :: rest) = ceIds env rest := by
            simp [ceIds, hfl]
          rw [hfl, hids]
      · obtain ⟨c2, hrec⟩ := ih c cnt s (fun x hx => hwt x (by simp [hx]))
        refine ⟨c2, ?_⟩
        simp only [ceLoop, hck, if_true, ht, htt, if_neg he,
          Bool.false_eq_true, if_false, hrec]
        have hfl : (m :: rest).filter (fun m => expiredCache env m && truthyOptStr m.id)
            = rest.filter (fun m => expiredCache env m && truthyOptStr m.id) := by
          simp [List.filter_cons, hexp, he]
        have hids : ceIds env (m :: rest) = ceIds env rest := by
          simp [ceIds, hfl]
        rw [hfl, hids]
    · simp only [Bool.not_eq_true] at hck
      obtain ⟨c2, hrec⟩ := ih c cnt s (fun x hx => hwt x (by simp [hx]))
      refine ⟨c2, ?_⟩
      simp only [ceLoop, hck, Bool.false_eq_true, if_false, hrec]
      have hfl : (m :: rest).filter (fun m => expiredCache env m && truthyOptStr m.id)
          = rest.filter (fun m => expiredCache env m && truthyOptStr m.id) := by
        simp [List.filter_cons, expiredCache, hck]
      have hids : ceIds env (m :: rest) = ceIds env rest := by
        simp [ceIds, hfl]
      rw [hfl, hids]

theorem ceIds_contains (env : Env) (l : List Memory) (x : Memory) (hx : x ∈ l)
    (W2 : (l.map (fun m => m.id)).Nodup) :
    (ceIds env l).contains x.id = (expiredCache env x && truthyOptStr x.id) := by
  by_cases hm : (expiredCache env x && truthyOptStr x.id) = true
  · rw [hm]
    rw [List.contains_iff_exists_mem_beq]
    obtain ⟨hm1, hm2⟩ := Bool.and_eq_true_iff.mp hm
    refine ⟨x.id, ?_, by simp⟩
    simp only [ceIds, List.mem_map, List.mem_filter]
    exact ⟨x, ⟨hx, by rw [hm1, hm2]; simp⟩, rfl⟩
  · simp only [Bool.not_eq_true] at hm
    rw [hm]
    by_cases hc : (ceIds env l).contains x.id = true
    · exfalso
      rw [List.contains_iff_exists_mem_beq] at hc
      obtain ⟨a, ha, hbeq⟩ := hc
      simp only [ceIds, List.mem_map, List.mem_filter] at ha
      obtain ⟨y, ⟨hyl, hym⟩, hya⟩ := ha
      have hxy : x.id = y.id := by
        rw [← hya] at hbeq
        exact eq_of_beq hbeq
      have hyx : y = x := List.inj_on_of_nodup_map W2 hyl hx hxy.symm
      rw [hyx] at hym
      rw [hym] at hm
      simp at hm
    · simpa using hc

/-- C3: `clear_expired` deletes exactly the cache entries (the memories
carrying a truthy `cache_key`) whose age `now - cache_time` is at least
their own (defaulted) ttl, returns the number of entries it deleted, and
leaves every other memory - fresher cache entries and non-cache records
alike - unchanged. -/
theorem cache_clear_expired_exact (env : Env) (s : CState) (h : noFail env)
    (W : WFState s) (WT : WTState s) :
    clearOp env s = ((s.mems.filter (fun m => expiredCache env m)).length,
      { s with mems := s.mems.filter (fun m => !(expiredCache env m)) }) := by
  obtain ⟨W1, W2, _⟩ := W
  obtain ⟨c2, hloop⟩ := ceLoop_noFail env h s.mems 2 0 s WT
  simp only [clearOp, clearRaw, h 0, h 1, Bool.false_eq_true, if_false, hloop]
  have hcount : s.mems.filter (fun m => expiredCache env m && truthyOptStr m.id)
      = s.mems.filter (fun m => expiredCache env m) := by
    refine List.filter_congr ?_
    intro x hxm
    rw [W1 x hxm, Bool.and_true]
  have hstate : s.mems.filter (fun m => !((ceIds env s.mems).contains m.id))
      = s.mems.filter (fun m => !(expiredCache env m)) := by
    refine List.filter_congr ?_
    intro x hxm
    rw [ceIds_contains env s.mems x hxm W2, W1 x hxm, Bool.and_true]
  rw [hcount, hstate]
  simp

theorem cache_clear_expired_exact_witness :
    clearOp ⟨100, fun _ => false⟩
        ⟨[⟨some "a", "7", some [("cache_key", .str "k"), ("cache_time", .num 0),
            ("ttl", .num 100)], []⟩,
          ⟨some "b", "note", none, []⟩], 5⟩
      = (1, ⟨[⟨some "b", "note", none, []⟩], 5⟩) :=
  (cache_clear_expired_exact ⟨100, fun _ => false⟩ _ (fun _ => rfl)
    ⟨by decide, by decide, by decide⟩ (by unfold WTState; decide)).trans (by rfl)

/-! ### Frame property of `delete` and `clear_expired` (C10) -/

/-- Store state after a `try:` body, whether it returned or raised. -/
def raisingState {α : Type} : Raising α → CState
  | .ok (_, _, s2) => s2
  | .error (_, s2) => s2

theorem delLoop_state (env : Env) (key : String) :
    ∀ l c s, ∃ ids : List (Option String),
      (∀ i ∈ ids, ∃ m, m ∈ l ∧ (matchesKey m key && truthyOptStr m.id) = true ∧ m.id = i) ∧
      raisingState (delLoop env key l c s)
        = { s with mems := s.mems.filter (fun m => !(ids.contains m.id)) } := by
  intro l
  induction l with
  | nil =>
    intro c s
    refine ⟨[], by simp, ?_⟩
    simp [delLoop, raisingState, List.filter_true]
  | cons m rest ih =>
    intro c s
    by_cases hm : matchesKey m key = true
    · by_cases hid : truthyOptStr m.id = true
      · by_cases hf : env.fail c = true
        · refine ⟨[], by simp, ?_⟩
          simp [delLoop, hm, hid, hf, raisingState, List.filter_true]
        · simp only [Bool.not_eq_true] at hf
          obtain ⟨i0, hi0, _⟩ := truthyOptStr_spec hid
          obtain ⟨ids, hsrc, hstate⟩ := ih (c+1) (removeId (m.id.getD "") s)
          refine ⟨m.id :: ids, ?_, ?_⟩
          · intro i hi
            rcases List.mem_cons.mp hi with hi | hi
            · exact ⟨m, by simp, by simp [hm, hid], hi.symm⟩
            · obtain ⟨m2, hm2, hp, he⟩ := hsrc i hi
              exact ⟨m2, by simp [hm2], hp, he⟩
          · simp only [delLoop, hm, hid, hf, Bool.false_eq_true, if_false, if_true,
              hstate]
            have hmems : (removeId (m.id.getD "") s).mems.filter
                  (fun x => !(ids.contains x.id))
                = s.mems.filter (fun x => !((m.id :: ids).contains x.id)) := by
              simp only [removeId, List.filter_filter]
              refine List.filter_congr ?_
              intro x _
              rw [hi0]
              simp only [Option.getD_some, List.contains_cons, Bool.not_or]
              rw [Bool.and_comm]
            simp only [removeId] at hmems ⊢
            rw [hmems]
      · simp only [Bool.not_eq_true] at hid
        obtain ⟨ids, hsrc, hstate⟩ := ih c s
        refine ⟨ids, ?_, ?_⟩
        · intro i hi
          obtain ⟨m2, hm2, hp, he⟩ := hsrc i hi
          exact ⟨m2, by simp [hm2], hp, he⟩
        · simp only [delLoop, hm, hid, Bool.false_eq_true, if_false, if_true, hstate]
    · simp only [Bool.not_eq_true] at hm
      obtain ⟨ids, hsrc, hstate⟩ := ih c s
      refine ⟨ids, ?_, ?_⟩
      · intro i hi
        obtain ⟨m2, hm2, hp, he⟩ := hsrc i hi
        exact ⟨m2, by simp [hm2], hp, he⟩
      · simp only [delLoop, hm, Bool.false_eq_true, if_false, hstate]

theorem ceLoop_state (env : Env) :
    ∀ l c cnt s, ∃ ids : List (Option String),
      (∀ i ∈ ids, ∃ m, m ∈ l ∧ (hasCacheKey m && truthyOptStr m.id) = true ∧ m.id = i) ∧
      raisingState (ceLoop env l c cnt s)
        = { s with mems := s.mems.filter (fun m => !(ids.contains m.id)) } := by
  intro l
  induction l with
  | nil =>
    intro c cnt s
    refine ⟨[], by simp, ?_⟩
    simp [ceLoop, raisingState, List.filter_true]
  | cons m rest ih =>
    intro c cnt s
    by_cases hck : hasCacheKey m = true
    · cases ht : toInt ((mdGet (m.metadata.getD []) "cache_time").getD (.num 0)) with
      | none =>
        refine ⟨[], by simp, ?_⟩
        simp [ceLoop, hck, ht, raisingState, List.filter_true]
      | some t =>
        cases htt : toInt ((mdGet (m.metadata.getD []) "ttl").getD (.num 3600)) with
        | none =>
          refine ⟨[], by simp, ?_⟩
          simp [ceLoop, hck, ht, htt, raisingState, List.filter_true]
        | some ttlv =>
          by_cases he : env.now - t ≥ ttlv
          · by_cases hid : truthyOptStr m.id = true
            · by_cases hf : env.fail c = true
              · refine ⟨[], by simp, ?_⟩
                simp [ceLoop, hck, ht, htt, he, hid, hf, raisingState, List.filter_true]
              · simp only [Bool.not_eq_true] at hf
                obtain ⟨i0, hi0, _⟩ := truthyOptStr_spec hid
                obtain ⟨ids, hsrc, hstate⟩ := ih (c+1) (cnt+1) (removeId (m.id.getD "") s)
                refine ⟨m.id :: ids, ?_, ?_⟩
                · intro i hi
                  rcases List.mem_cons.mp hi with hi | hi
                  · exact ⟨m, by simp, by simp [hck, hid], hi.symm⟩
                  · obtain ⟨m2, hm2, hp, hie⟩ := hsrc i hi
                    exact ⟨m2, by simp [hm2], hp, hie⟩
                · simp only [ceLoop, hck, ht, htt, if_pos he, hid, hf,
                    Bool.false_eq_true, if_false, if_true, hstate]
                  have hmems : (removeId (m.id.getD "") s).mems.filter
                        (fun x => !(ids.contains x.id))
                      = s.mems.filter (fun x => !((m.id :: ids).contains x.id)) := by
                    simp only [removeId, List.filter_filter]
                    refine List.filter_congr ?_
                    intro x _
                    rw [hi0]
                    simp only [Option.getD_some, List.contains_cons, Bool.not_or]
                    rw [Bool.and_comm]
                  simp only [removeId] at hmems ⊢
                  rw [hmems]
            · simp only [Bool.not_eq_true] at hid
              obtain ⟨ids, hsrc, hstate⟩ := ih c cnt s
              refine ⟨ids, ?_, ?_⟩
              · intro i hi
                obtain ⟨m2, hm2, hp, hie⟩ := hsrc i hi
                exact ⟨m2, by simp [hm2], hp, hie⟩
              · simp only [ceLoop, hck, ht, htt, if_pos he, hid, Bool.false_eq_true,
                  if_false, if_true, hstate]
          · obtain ⟨ids, hsrc, hstate⟩ := ih c cnt s
            refine ⟨ids, ?_, ?_⟩
            · intro i hi
              obtain ⟨m2, hm2, hp, hie⟩ := hsrc i hi
              exact ⟨m2, by simp [hm2], hp, hie⟩
            · simp only [ceLoop, hck, ht, htt, if_neg he, if_true, hstate]
    · simp only [Bool.not_eq_true] at hck
      obtain ⟨ids, hsrc, hstate⟩ := ih c cnt s
      refine ⟨ids, ?_, ?_⟩
      · intro i hi
        obtain ⟨m2, hm2, hp, hie⟩ := hsrc i hi
        exact ⟨m2, by simp [hm2], hp, hie⟩
      · simp only [ceLoop, hck, Bool.false_eq_true, if_false, hstate]

theorem deleteOp_snd (env : Env) (key : String) (s : CState) :
    (deleteOp env key s).2 = raisingState (deleteRaw env key s) := by
  unfold deleteOp
  cases h : deleteRaw env key s with
  | ok r =>
    obtain ⟨b, c, s2⟩ := r
    simp [raisingState]
  | error e =>
    obtain ⟨c, s2⟩ := e
    simp [raisingState]

theorem clearOp_snd (env : Env) (s : CState) :
    (clearOp env s).2 = raisingState (clearRaw env s) := by
  unfold clearOp
  cases h : clearRaw env s with
  | ok r =>
    obtain ⟨n, c, s2⟩ := r
    simp [raisingState]
  | error e =>
    obtain ⟨c, s2⟩ := e
    simp [raisingState]

theorem deleteOp_frame (env : Env) (key : String) (s : CState) :
    ∃ ids : List (Option String),
      (∀ i ∈ ids, ∃ m, m ∈ s.mems ∧ (matchesKey m key && truthyOptStr m.id) = true
        ∧ m.id = i) ∧
      (deleteOp env key s).2
        = { s with mems := s.mems.filter (fun m => !(ids.contains m.id)) } := by
  rw [deleteOp_snd]
  unfold deleteRaw deleteCoreRaw
  by_cases h0 : env.fail 0 = true
  · refine ⟨[], by simp, ?_⟩
    simp [h0, raisingState, List.filter_true]
  · simp only [Bool.not_eq_true] at h0
    by_cases h1 : env.fail 1 = true
    · refine ⟨[], by simp, ?_⟩
      simp [h0, h1, raisingState, List.filter_true]
    · simp only [Bool.not_eq_true] at h1
      simp only [h0, h1, Bool.false_eq_true, if_false]
      exact delLoop_state env key s.mems 2 s

theorem clearOp_frame (env : Env) (s : CState) :
    ∃ ids : List (Option String),
      (∀ i ∈ ids, ∃ m, m ∈ s.mems ∧ (hasCacheKey m && truthyOptStr m.id) = true
        ∧ m.id = i) ∧
      (clearOp env s).2
        = { s with mems := s.mems.filter (fun m => !(ids.contains m.id)) } := by
  rw [clearOp_snd]
  unfold clearRaw
  by_cases h0 : env.fail 0 = true
  · refine ⟨[], by simp, ?_⟩
    simp [h0, raisingState, List.filter_true]
  · simp only [Bool.not_eq_true] at h0
    by_cases h1 : env.fail 1 = true
    · refine ⟨[], by simp, ?_⟩
      simp [h0, h1, raisingState, List.filter_true]
    · simp only [Bool.not_eq_true] at h1
      simp only [h0, h1, Bool.false_eq_true, if_false]
      exact ceLoop_state env s.mems 2 0 s

/-- C10: whatever the remote failures, `delete(key)` removes only memories
whose metadata `cache_key` equals `key`, and `clear_expired` removes only
memories carrying a truthy `cache_key`; when remote ids are distinct, every
other memory of the holder container - in particular any record without
cache metadata - survives both operations. -/
theorem cache_delete_clear_frame (env env2 : Env) (key : String) (s : CState)
    (W2 : (s.mems.map (fun m => m.id)).Nodup) :
    ((deleteOp env key s).2.mems ⊆ s.mems ∧
      ∀ m ∈ s.mems, matchesKey m key = false → m ∈ (deleteOp env key s).2.mems) ∧
    ((clearOp env2 s).2.mems ⊆ s.mems ∧
      ∀ m ∈ s.mems, hasCacheKey m = false → m ∈ (clearOp env2 s).2.mems) := by
  obtain ⟨ids, hsrc, hstate⟩ := deleteOp_frame env key s
  obtain ⟨ids2, hsrc2, hstate2⟩ := clearOp_frame env2 s
  constructor
  · rw [hstate]
    refine ⟨fun x hx => List.mem_of_mem_filter hx, ?_⟩
    intro m hm hnm
    rw [List.mem_filter]
    refine ⟨hm, ?_⟩
    cases hcb : ids.contains m.id with
    | false => simp
    | true =>
      exfalso
      rw [List.contains_iff_exists_mem_beq] at hcb
      obtain ⟨i, hi, hbeq⟩ := hcb
      obtain ⟨m2, hm2, hp, hie⟩ := hsrc i hi
      have hids : m.id = m2.id := by rw [hie]; exact eq_of_beq hbeq
      have hmm : m2 = m := List.inj_on_of_nodup_map W2 hm2 hm hids.symm
      rw [hmm] at hp
      rw [(Bool.and_eq_true_iff.mp hp).1] at hnm
      simp at hnm
  · rw [hstate2]
    refine ⟨fun x hx => List.mem_of_mem_filter hx, ?_⟩
    intro m hm hnm
    rw [List.mem_filter]
    refine ⟨hm, ?_⟩
    cases hcb : ids2.contains m.id with
    | false => simp
    | true =>
      exfalso
      rw [List.contains_iff_exists_mem_beq] at hcb
      obtain ⟨i, hi, hbeq⟩ := hcb
      obtain ⟨m2, hm2, hp, hie⟩ := hsrc2 i hi
      have hids : m.id = m2.id := by rw [hie]; exact eq_of_beq hbeq
      have hmm : m2 = m := List.inj_on_of_nodup_map W2 hm2 hm hids.symm
      rw [hmm] at hp
      rw [(Bool.and_eq_true_iff.mp hp).1] at hnm
      simp at hnm

theorem cache_delete_clear_frame_witness :
    (deleteOp ⟨0, fun _ => false⟩ "k"
        ⟨[⟨some "b", "note", none, []⟩], 0⟩).2.mems
      ⊆ [⟨some "b", "note", none, []⟩] ∧
    ∀ m ∈ [(⟨some "b", "note", none, []⟩ : Memory)], matchesKey m "k" = false →
      m ∈ (deleteOp ⟨0, fun _ => false⟩ "k" ⟨[⟨some "b", "note", none, []⟩], 0⟩).2.mems :=
  (cache_delete_clear_frame ⟨0, fun _ => false⟩ ⟨0, fun _ => false⟩ "k"
    ⟨[⟨some "b", "note", none, []⟩], 0⟩ (by decide)).1

/-! ## Message normalization (`app/models/thread.py`,
`BackboardService._dict_to_model`) -/

mutual
/-- Python `str(...)` of a JSON-shaped value.  (Containers stringify via
`repr` of their elements; string `repr` is modelled without quote-escaping,
which no claim depends on.) -/
def pyStr : JVal → String
  | .null => "None"
  | .bool true => "True"
  | .bool false => "False"
  | .num n => intRepr n
  | .str s => s
  | .arr xs => "[" ++ joinRepr xs ++ "]"
  | .obj kvs => "\x7b" ++ joinFields kvs ++ "\x7d"

/-- Python `repr(...)` of a JSON-shaped value. -/
def pyRepr : JVal → String
  | .null => "None"
  | .bool true => "True"
  | .bool false => "False"
  | .num n => intRepr n
  | .str s => "'" ++ s ++ "'"
  | .arr xs => "[" ++ joinRepr xs ++ "]"
  | .obj kvs => "\x7b" ++ joinFields kvs ++ "\x7d"

/-- Comma-joined `repr`s of list elements. -/
def joinRepr : List JVal → String
  | [] => ""
  | [v] => pyRepr v
  | v :: vs => pyRepr v ++ ", " ++ joinRepr vs

/-- Comma-joined `'key': repr(value)` renderings of dict entries. -/
def joinFields : List (String × JVal) → String
  | [] => ""
  | [(k, v)] => "'" ++ k ++ "': " ++ pyRepr v
  | (k, v) :: kvs => "'" ++ k ++ "': " ++ pyRepr v ++ ", " ++ joinFields kvs
end

/-- `app.models.thread.Message` (fields the claims concern). -/
structure Message where
  role : String
  content : String
  timestamp : Option JVal

/-- Message normalization in `BackboardService._dict_to_model` (Thread
branch): `Message.model_construct(role=str(msg.get('role', 'user')),
content=str(msg.get('content', '')), timestamp=msg.get('timestamp'))`. -/
def msgFromDict (msg : List (String × JVal)) : Message :=
  { role := pyStr ((mdGet msg "role").getD (.str "user"))
    content := pyStr ((mdGet msg "content").getD (.str ""))
    timestamp := mdGet msg "timestamp" }

/-- `app.models.thread.Message.__init__`: a present `role` is coerced with
`str(...)` before validation (the `normalize_role` validator then receives a
string and returns it unchanged); an absent role takes the `'user'` default.
`content` must be a string (default `''`); pydantic rejects non-string
content.  Timestamp validation is not modelled. -/
def messageInit (data : List (String × JVal)) : Option Message :=
  let roleStr := match mdGet data "role" with
    | some v => pyStr v
    | none => "user"
  match mdGet data "content" with
  | none => some { role := roleStr, content := "", timestamp := mdGet data "timestamp" }
  | some (.str s) => some { role := roleStr, content := s, timestamp := mdGet data "timestamp" }
  | some _ => none

/-- The `content` field, if present, is a string (the only shape pydantic
accepts for `content: str`). -/
def contentOK (data : List (String × JVal)) : Bool :=
  match mdGet data "content" with
  | none => true
  | some (.str _) => true
  | some _ => false

/-- C5: role normalization is total and string-valued along both
construction paths: an absent role yields `"user"`, a role present with any
value yields `str(value)` (so the integer 123 yields `"123"`), and no role
value is ever rejected - construction can only fail over non-string
content, never over the role. -/
theorem message_role_normalization (data : List (String × JVal)) :
    (mdGet data "role" = none →
      (msgFromDict data).role = "user" ∧
      ∀ msg ∈ messageInit data, msg.role = "user") ∧
    (∀ v : JVal, mdGet data "role" = some v →
      (msgFromDict data).role = pyStr v ∧
      ∀ msg ∈ messageInit data, msg.role = pyStr v) ∧
    (∀ n : Int, mdGet data "role" = some (.num n) →
      (msgFromDict data).role = intRepr n) ∧
    (contentOK data = true → (messageInit data).isSome = true) := by
  refine ⟨?_, ?_, ?_, ?_⟩
  · intro h
    constructor
    · simp [msgFromDict, h, pyStr]
    · intro msg hmsg
      simp only [messageInit, h] at hmsg
      cases hc : mdGet data "content" with
      | none => simp [hc] at hmsg; rw [← hmsg]
      | some v =>
        cases v <;> simp [hc] at hmsg <;> rw [← hmsg]
  · intro v h
    constructor
    · simp [msgFromDict, h]
    · intro msg hmsg
      simp only [messageInit, h] at hmsg
      cases hc : mdGet data "content" with
      | none => simp [hc] at hmsg; rw [← hmsg]
      | some w =>
        cases w <;> simp [hc] at hmsg <;> rw [← hmsg]
  · intro n h
    simp [msgFromDict, h, pyStr]
  · intro h
    simp only [contentOK] at h
    cases hc : mdGet data "content" with
    | none => simp [messageInit, hc]
    | some w =>
      rw [hc] at h
      cases w <;> simp_all [messageInit, hc]

theorem message_role_normalization_witness :
    (msgFromDict [("role", .num 123)]).role = "123" ∧
    (msgFromDict ([] : List (String × JVal))).role = "user" :=
  ⟨(((message_role_normalization [("role", .num 123)]).2.1 (.num 123) rfl).1).trans rfl,
   ((message_role_normalization []).1 rfl).1⟩

/-! ## Route-level error mapping (`app/api/assistants.py`, `app/api/memory.py`) -/

/-- Exception classes the route handlers distinguish.  Pydantic's
`ValidationError` subclasses `ValueError`, so it is caught by the
`except ValueError` arm. -/
inductive Exc where
  | valueError : Exc
  | validationError : Exc
  | otherError : Exc

/-- `isinstance(e, ValueError)`, deciding which `except` arm catches `e`. -/
def isValueError : Exc → Bool
  | .valueError => true
  | .validationError => true
  | .otherError => false

/-- `AssistantCreate(**data)`: `name: str` is required; a missing or
non-string name raises pydantic `ValidationError`. -/
def assistantCreateValidate (body : List (String × JVal)) : Except Exc Unit :=
  match mdGet body "name" with
  | some (.str _) => .ok ()
  | _ => .error .validationError

/-- Status code of `POST /api/assistants` (`create_assistant`):
`get_service` raises `ValueError` when the session holds no (truthy) API key
(caught by `except ValueError` → 401); `AssistantCreate(**data)` raises
`ValidationError` - a `ValueError` subclass - on a malformed body (→ 401 as
well); a raised remote failure reaches `except ValueError`/`except
Exception` by its class (→ 401/500); otherwise 201. -/
def create_assistant (apiKey : Option String) (body : List (String × JVal))
    (remote : Except Exc Unit) : Nat :=
  if !(truthyOptStr apiKey) then 401
  else
    match assistantCreateValidate body with
    | .error e => if isValueError e then 401 else 500
    | .ok () =>
      match remote with
      | .ok () => 201
      | .error e => if isValueError e then 401 else 500

/-- Status code of `GET /api/memory/<id>` (`get_memory`): 401 without a
(truthy) session API key, an explicit 400 when the `assistant_id` query
parameter is missing or empty, per-class 401/500 on raised failures, 200 on
success. -/
def get_memory (apiKey : Option String) (assistantId : Option String)
    (remote : Except Exc Unit) : Nat :=
  if !(truthyOptStr apiKey) then 401
  else if !(truthyOptStr assistantId) then 400
  else
    match remote with
    | .ok () => 200
    | .error e => if isValueError e then 401 else 500

/-- C6 (counterexample): with a valid API key, creating an assistant with a
body that lacks the required `name` yields HTTP 401 - pydantic's
`ValidationError` subclasses `ValueError` and is caught by the 401 arm - not
the 400 the claim demands for malformed input. -/
theorem route_error_mapping_counterexample :
    create_assistant (some "key") [] (.ok ()) = 401 ∧ (401 : Nat) ≠ 400 :=
  ⟨rfl, by decide⟩

/-- C6 (amended): a missing API key yields 401; the explicitly-checked
missing `assistant_id` yields 400; but a missing required body field such as
`name` on assistant creation raises pydantic `ValidationError`, a
`ValueError` subclass, and is therefore mapped to 401, not 400; any
non-`ValueError` failure yields 500, and success yields 201/200. -/
theorem route_error_mapping (body : List (String × JVal)) (aid : Option String)
    (remote : Except Exc Unit) (k : String) (hk : ¬k = "") :
    create_assistant none body remote = 401 ∧
    get_memory none aid remote = 401 ∧
    (mdGet body "name" = none → create_assistant (some k) body remote = 401) ∧
    (truthyOptStr aid = false → get_memory (some k) aid remote = 400) ∧
    (∀ s, mdGet body "name" = some (.str s) →
      create_assistant (some k) body (.error .otherError) = 500 ∧
      create_assistant (some k) body (.ok ()) = 201) ∧
    (truthyOptStr aid = true →
      get_memory (some k) aid (.error .otherError) = 500 ∧
      get_memory (some k) aid (.ok ()) = 200) := by
  have hkk : truthyOptStr (some k) = true := by simp [truthyOptStr, hk]
  refine ⟨rfl, rfl, ?_, ?_, ?_, ?_⟩
  · intro h
    simp [create_assistant, hkk, assistantCreateValidate, h, isValueError]
  · intro h
    simp [get_memory, hkk, h]
  · intro s h
    constructor
    · simp [create_assistant, hkk, assistantCreateValidate, h, isValueError]
    · simp [create_assistant, hkk, assistantCreateValidate, h]
  · intro h
    constructor
    · simp [get_memory, hkk, h, isValueError]
    · simp [get_memory, hkk, h]

theorem route_error_mapping_witness :
    create_assistant none [] (.ok ()) = 401 ∧
    get_memory (some "key") none (.ok ()) = 400 :=
  ⟨(route_error_mapping [] none (.ok ()) "key" (by decide)).1,
   (route_error_mapping [] none (.ok ()) "key" (by decide)).2.2.2.1 rfl⟩

/-! ## The process-local model-catalog cache (`BackboardService.list_models`) -/

/-- `app.models.model.ModelInfo`. -/
structure ModelInfo where
  id : String
  name : String
  provider : Option String
  capabilities : List String
  description : String
  maxTokens : Option Int
  supportsStreaming : Bool

/-- `name: str` field (pydantic rejects non-strings). -/
def asStr : JVal → Option String
  | .str s => some s
  | _ => none

/-- `Optional[str]` field. -/
def asOptStr : JVal → Option (Option String)
  | .null => some none
  | .str s => some (some s)
  | _ => none

/-- `Optional[int]` field. -/
def asOptInt : JVal → Option (Option Int)
  | .null => some none
  | .num n => some (some n)
  | _ => none

/-- `Optional[bool]` field (numeric/string coercions not modelled). -/
def asBool : JVal → Option Bool
  | .bool b => some b
  | _ => none

/-- Conversion of one raw catalog item to `ModelInfo`
(`list_models`, lines 364-377): items whose fields fail validation (or whose
`model_type` has no `.upper()`) are dropped by the `except: continue`. -/
def itemToModelInfo (item : List (String × JVal)) : Option ModelInfo := do
  let nm ← asStr ((mdGet item "name").getD (.str ""))
  let prov ← asOptStr ((mdGet item "provider").getD .null)
  let mt ← asStr ((mdGet item "model_type").getD (.str "llm"))
  let ctx ← asOptInt ((mdGet item "context_limit").getD .null)
  let st ← asBool ((mdGet item "supports_tools").getD (.bool false))
  some { id := nm, name := nm, provider := prov, capabilities := []
         description := mt.toUpper ++ " model", maxTokens := ctx
         supportsStreaming := st }

/-- The module-level `_models_cache` / `_models_cache_time` pair. -/
structure MCState where
  cache : List ModelInfo
  time : Int

/-- `BackboardService.list_models`, with the HTTP pagination abstracted into
a fetch oracle delivering the concatenated raw `models` items in arrival
order (or failing); the middle component reports whether a remote request
was issued. -/
def list_models (now : Int) (st : MCState)
    (fetch : Except Unit (List (List (String × JVal)))) :
    List ModelInfo × Bool × MCState :=
  if !st.cache.isEmpty && decide (now - st.time < 3600) then (st.cache, false, st)
  else
    match fetch with
    | .error _ => ([], true, st)
    | .ok items =>
      let result := items.filterMap itemToModelInfo
      (result, true, ⟨result, now⟩)

/-- C8 (counterexample): a previously fetched catalog that happens to be
empty is stored but never served: one second after caching an empty result,
`list_models` issues a remote request again (the truthiness test
`if _models_cache` treats the empty list as absent). -/
theorem models_cache_counterexample :
    (list_models 1 ⟨[], 0⟩ (.ok [])).2.1 = true ∧ (1 : Int) - 0 < 3600 :=
  ⟨rfl, by decide⟩

/-- C8 (amended): a previously fetched non-empty catalog younger than 3600
seconds is served from the process-local cache without any remote request
and without state change; otherwise the catalog is fetched, and a successful
refresh overwrites the cache with the fetched result regardless of what was
cached before (last writer wins), so duplicate refreshes are safe. -/
theorem models_cache_behavior (now : Int) (st st2 : MCState)
    (fetch : Except Unit (List (List (String × JVal))))
    (items : List (List (String × JVal))) :
    (st.cache ≠ [] → now - st.time < 3600 →
      list_models now st fetch = (st.cache, false, st)) ∧
    ((st.cache = [] ∨ 3600 ≤ now - st.time) →
      (list_models now st (.ok items)).2.2
        = ⟨items.filterMap itemToModelInfo, now⟩) ∧
    ((st.cache = [] ∨ 3600 ≤ now - st.time) → (st2.cache = [] ∨ 3600 ≤ now - st2.time) →
      (list_models now st (.ok items)).2.2 = (list_models now st2 (.ok items)).2.2) := by
  have hstale : ∀ s : MCState, (s.cache = [] ∨ 3600 ≤ now - s.time) →
      (!s.cache.isEmpty && decide (now - s.time < 3600)) = false := by
    intro s hs
    rcases hs with hs | hs
    · simp [hs]
    · simp [show ¬(now - s.time < 3600) from by omega]
  refine ⟨?_, ?_, ?_⟩
  · intro h1 h2
    simp [list_models, List.isEmpty_iff, h1, h2]
  · intro hs
    simp [list_models, hstale st hs]
  · intro hs hs2
    simp [list_models, hstale st hs, hstale st2 hs2]

theorem models_cache_behavior_witness :
    list_models 10 ⟨[⟨"a", "a", none, [], "LLM model", none, false⟩], 5⟩ (.ok [])
      = ([⟨"a", "a", none, [], "LLM model", none, false⟩], false,
         ⟨[⟨"a", "a", none, [], "LLM model", none, false⟩], 5⟩) :=
  (models_cache_behavior 10 ⟨[⟨"a", "a", none, [], "LLM model", none, false⟩], 5⟩
    ⟨[], 0⟩ (.ok []) []).1 (by simp) (by decide)

/-! ## Aggregate memory search (`search_memory` in `app/api/memory.py`) -/

/-- `app.models.assistant.Assistant` restricted to the fields the aggregate
search reads. -/
structure Assistant where
  id : Option String
  name : String

/-- Whether `needle` is a prefix of the haystack. -/
def startsWithL : List Char → List Char → Bool
  | [], _ => true
  | a :: as2, bs =>
    match bs with
    | [] => false
    | b :: bs2 => a == b && startsWithL as2 bs2

/-- Whether `needle` occurs as a contiguous substring. -/
def hasSubL (needle : List Char) : List Char → Bool
  | [] => needle.isEmpty
  | c :: cs => startsWithL needle (c :: cs) || hasSubL needle cs

/-- Python `needle in hay` for strings. -/
def pyIn (needle hay : String) : Bool := hasSubL needle.data hay.data

/-- Python slicing `l[:limit]` (negative limits count from the end). -/
def pySliceTo {α : Type} (limit : Int) (l : List α) : List α :=
  if 0 ≤ limit then l.take limit.toNat
  else l.take ((l.length : Int) + limit).toNat

/-- One aggregate search hit: assistant id, assistant name, memory. -/
abbrev SearchHit := Option String × String × Memory

/-- The inner loop over one assistant's memories: append each
case-insensitive match and break as soon as the accumulated count reaches
`limit`. -/
def searchInner (aid : Option String) (aname qL : String) (lim : Int) :
    List Memory → List SearchHit → List SearchHit
  | [], acc => acc
  | m :: ms, acc =>
    if pyIn qL m.content.toLower then
      let acc2 := acc ++ [(aid, aname, m)]
      if lim ≤ (acc2.length : Int) then acc2
      else searchInner aid aname qL lim ms acc2
    else searchInner aid aname qL lim ms acc

/-- The outer loop over the assistants: list each assistant's memories
(skipping ones whose listing raises), run the inner loop, and break at
`limit`. -/
def searchOuter (memsOf : Option String → Except Unit (List Memory))
    (qL : String) (lim : Int) : List Assistant → List SearchHit → List SearchHit
  | [], acc => acc
  | a :: rest, acc =>
    match memsOf a.id with
    | .error _ => searchOuter memsOf qL lim rest acc
    | .ok mems =>
      let acc2 := searchInner a.id a.name qL lim mems acc
      if lim ≤ (acc2.length : Int) then acc2
      else searchOuter memsOf qL lim rest acc2

/-- The aggregate branch of `POST /api/memory/search` (body without
`assistant_id`): filter out the cache-holder assistant by name, scan the
remaining assistants for memories containing the lowercased query, then
return `all_memories[:limit]`. -/
def searchAggregate (assistants : List Assistant)
    (memsOf : Option String → Except Unit (List Memory))
    (query : String) (lim : Int) : List SearchHit :=
  pySliceTo lim (searchOuter memsOf query.toLower lim
    (assistants.filter (fun a => !(a.name == "bb_browser_cache"))) [])

/-- The hits contributed by one assistant's memory list. -/
def matchesIn (aid : Option String) (aname qL : String) (ms : List Memory) :
    List SearchHit :=
  (ms.filter (fun m => pyIn qL m.content.toLower)).map (fun m => (aid, aname, m))

/-- Every hit the scan could produce, in scan order: over the non-cache
assistants, the matching memories of each successfully listed assistant. -/
def allMatches (memsOf : Option String → Except Unit (List Memory))
    (qL : String) (assistants : List Assistant) : List SearchHit :=
  (assistants.filter (fun a => !(a.name == "bb_browser_cache"))).flatMap
    (fun a => match memsOf a.id with
      | .ok mems => matchesIn a.id a.name qL mems
      | .error _ => [])

theorem searchInner_spec (aid : Option String) (aname qL : String) (lim : Int) :
    ∀ ms acc, ∃ k, k ≤ (matchesIn aid aname qL ms).length ∧
      searchInner aid aname qL lim ms acc
        = acc ++ (matchesIn aid aname qL ms).take k ∧
      ((matchesIn aid aname qL ms).take k = matchesIn aid aname qL ms ∨
        lim ≤ ((acc ++ (matchesIn aid aname qL ms).take k).length : Int)) := by
  intro ms
  induction ms with
  | nil =>
    intro acc
    exact ⟨0, by simp [matchesIn], by simp [searchInner, matchesIn],
      .inl (by simp [matchesIn])⟩
  | cons m ms ih =>
    intro acc
    by_cases hm : pyIn qL m.content.toLower = true
    · have hM : matchesIn aid aname qL (m :: ms)
          = (aid, aname, m) :: matchesIn aid aname qL ms := by
        simp [matchesIn, List.filter_cons, hm]
      by_cases hlim : lim ≤ ((acc ++ [(aid, aname, m)]).length : Int)
      · refine ⟨1, by simp [hM], ?_, .inr ?_⟩
        · simp only [searchInner, hm, if_true, if_pos hlim, hM, List.take_succ_cons,
            List.take_zero]
        · rw [hM]
          simpa using hlim
      · obtain ⟨k, hk, heq, hdis⟩ := ih (acc ++ [(aid, aname, m)])
        refine ⟨k + 1, by simp [hM]; omega, ?_, ?_⟩
        · simp only [searchInner, hm, if_true, if_neg hlim, heq, hM,
            List.take_succ_cons, List.append_assoc, List.singleton_append]
        · rcases hdis with hdis | hdis
          · left
            rw [hM, List.take_succ_cons, hdis]
          · right
            rw [hM, List.take_succ_cons]
            simp only [List.length_append, List.length_cons, List.length_singleton,
              List.length_nil, List.length_take] at hdis ⊢
            push_cast at hdis ⊢
            omega
    · simp only [Bool.not_eq_true] at hm
      have hM : matchesIn aid aname qL (m :: ms) = matchesIn aid aname qL ms := by
        simp [matchesIn, List.filter_cons, hm]
      obtain ⟨k, hk, heq, hdis⟩ := ih acc
      exact ⟨k, by rw [hM]; exact hk,
        by simp only [searchInner, hm, Bool.false_eq_true, if_false, heq, hM],
        by rw [hM]; exact hdis⟩

theorem searchOuter_spec (memsOf : Option String → Except Unit (List Memory))
    (qL : String) (lim : Int) :
    ∀ as acc, ∃ k, k ≤ (allMatches memsOf qL as).length ∧
      searchOuter memsOf qL lim (as.filter (fun a => !(a.name == "bb_browser_cache"))) acc
        = acc ++ (allMatches memsOf qL as).take k ∧
      ((allMatches memsOf qL as).take k = allMatches memsOf qL as ∨
        lim ≤ ((acc ++ (allMatches memsOf qL as).take k).length : Int)) := by
  intro as
  induction as with
  | nil =>
    intro acc
    exact ⟨0, by simp [allMatches], by simp [searchOuter, allMatches],
      .inl (by simp [allMatches])⟩
  | cons a rest ih =>
    intro acc
    by_cases hc : (a.name == "bb_browser_cache") = true
    · have hA : allMatches memsOf qL (a :: rest) = allMatches memsOf qL rest := by
        simp [allMatches, List.filter_cons, hc]
      have hFilt : (a :: rest).filter (fun a => !(a.name == "bb_browser_cache"))
          = rest.filter (fun a => !(a.name == "bb_browser_cache")) := by
        simp [List.filter_cons, hc]
      obtain ⟨k, hk, heq, hdis⟩ := ih acc
      exact ⟨k, by rw [hA]; exact hk, by rw [hFilt, heq, hA],
        by rw [hA]; exact hdis⟩
    · simp only [Bool.not_eq_true] at hc
      have hFilt : (a :: rest).filter (fun a => !(a.name == "bb_browser_cache"))
          = a :: rest.filter (fun a => !(a.name == "bb_browser_cache")) := by
        simp [List.filter_cons, hc]
      cases hmf : memsOf a.id with
      | error e =>
        have hA : allMatches memsOf qL (a :: rest) = allMatches memsOf qL rest := by
          simp [allMatches, List.filter_cons, hc, hmf]
        obtain ⟨k, hk, heq, hdis⟩ := ih acc
        refine ⟨k, by rw [hA]; exact hk, ?_, by rw [hA]; exact hdis⟩
        rw [hFilt]
        simp only [searchOuter, hmf, heq, hA]
      | ok mems =>
        have hA : allMatches memsOf qL (a :: rest)
            = matchesIn a.id a.name qL mems ++ allMatches memsOf qL rest := by
          simp [allMatches, List.filter_cons, hc, hmf]
        obtain ⟨k1, hk1, heq1, hdis1⟩ := searchInner_spec a.id a.name qL lim mems acc
        by_cases hlim : lim
            ≤ (((acc ++ (matchesIn a.id a.name qL mems).take k1).length : Nat) : Int)
        · refine ⟨k1, ?_, ?_, .inr ?_⟩
          · rw [hA]
            simp only [List.length_append]
            omega
          · rw [hFilt]
            simp only [searchOuter, hmf, heq1, if_pos hlim, hA]
            congr 1
            rw [List.take_append_eq_append_take, show k1 -
              (matchesIn a.id a.name qL mems).length = 0 from by omega,
              List.take_zero, List.append_nil]
          · rw [hA, List.take_append_eq_append_take, show k1 -
              (matchesIn a.id a.name qL mems).length = 0 from by omega,
              List.take_zero, List.append_nil]
            exact hlim
        · have hfull : (matchesIn a.id a.name qL mems).take k1
              = matchesIn a.id a.name qL mems := by
            rcases hdis1 with h | h
            · exact h
            · exact absurd h hlim
          have hk1full : k1 = (matchesIn a.id a.name qL mems).length := by
            have := congrArg List.length hfull
            simp only [List.length_take] at this
            omega
          obtain ⟨k2, hk2, heq2, hdis2⟩ := ih (searchInner a.id a.name qL lim mems acc)
          refine ⟨(matchesIn a.id a.name qL mems).length + k2, ?_, ?_, ?_⟩
          · rw [hA]
            simp only [List.length_append]
            omega
          · rw [hFilt]
            rw [heq1, hfull] at heq2
            simp only [searchOuter, hmf, heq1, hfull, hA, List.take_append]
            split
            · next h =>
              exfalso
              rw [hfull] at hlim
              simp only [List.length_append, List.length_take] at hlim h
              push_cast at hlim h
              omega
            · rw [heq2]
              simp [List.append_assoc]
          · rw [hA, List.take_append]
            rcases hdis2 with h | h
            · left
              rw [h]
            · right
              rw [heq1, hfull] at h
              simp only [List.length_append] at h ⊢
              push_cast at h ⊢
              omega

/-- C9: the aggregate memory search (body without `assistant_id`) scans all
assistants except the cache holder `bb_browser_cache` (filtered out by
name), includes only memories whose content contains the query
case-insensitively, and returns at most `limit` results; when the total
number of matches does not exceed the limit, every match of every non-cache
assistant is returned. -/
theorem memory_search_aggregate (assistants : List Assistant)
    (memsOf : Option String → Except Unit (List Memory)) (query : String)
    (lim : Int) (hl : 0 ≤ lim) :
    ((searchAggregate assistants memsOf query lim).length : Int) ≤ lim ∧
    (∀ r ∈ searchAggregate assistants memsOf query lim,
      (∃ a ∈ assistants, ¬(a.name = "bb_browser_cache") ∧ r.1 = a.id ∧ r.2.1 = a.name ∧
        ∃ mems, memsOf a.id = .ok mems ∧ r.2.2 ∈ mems) ∧
      pyIn query.toLower r.2.2.content.toLower = true) ∧
    (((allMatches memsOf query.toLower assistants).length : Int) ≤ lim →
      searchAggregate assistants memsOf query lim
        = allMatches memsOf query.toLower assistants) := by
  obtain ⟨k, hk, heq, hdis⟩ := searchOuter_spec memsOf query.toLower lim assistants []
  rw [List.nil_append] at heq hdis
  have hagg : searchAggregate assistants memsOf query lim
      = pySliceTo lim ((allMatches memsOf query.toLower assistants).take k) := by
    rw [searchAggregate, heq]
  have hslice : pySliceTo lim ((allMatches memsOf query.toLower assistants).take k)
      = ((allMatches memsOf query.toLower assistants).take k).take lim.toNat := by
    rw [pySliceTo, if_pos hl]
  refine ⟨?_, ?_, ?_⟩
  · rw [hagg, hslice]
    have h1 : (((allMatches memsOf query.toLower assistants).take k).take
        lim.toNat).length ≤ lim.toNat := by
      simp [List.length_take]
    calc ((((allMatches memsOf query.toLower assistants).take k).take
            lim.toNat).length : Int)
        ≤ (lim.toNat : Int) := by exact_mod_cast h1
      _ = lim := Int.toNat_of_nonneg hl
  · intro r hr
    rw [hagg, hslice] at hr
    have hr2 : r ∈ allMatches memsOf query.toLower assistants :=
      List.take_subset _ _ (List.take_subset _ _ hr)
    rw [allMatches] at hr2
    rw [List.mem_flatMap] at hr2
    obtain ⟨a, ha, hra⟩ := hr2
    rw [List.mem_filter] at ha
    obtain ⟨hass, hname⟩ := ha
    have hnm : ¬(a.name = "bb_browser_cache") := by
      simpa using hname
    cases hmf : memsOf a.id with
    | error e =>
      rw [hmf] at hra
      simp at hra
    | ok mems =>
      rw [hmf] at hra
      have hra2 : r ∈ matchesIn a.id a.name query.toLower mems := hra
      rw [matchesIn, List.mem_map] at hra2
      obtain ⟨m, hmm, hrm⟩ := hra2
      rw [List.mem_filter] at hmm
      refine ⟨⟨a, hass, hnm, ?_, ?_, mems, hmf, ?_⟩, ?_⟩
      · rw [← hrm]
      · rw [← hrm]
      · rw [← hrm]
        exact hmm.1
      · rw [← hrm]
        exact hmm.2
  · intro hall
    have hfull : (allMatches memsOf query.toLower assistants).take k
        = allMatches memsOf query.toLower assistants := by
      rcases hdis with h | h
      · exact h
      · have hlen := List.length_take k (allMatches memsOf query.toLower assistants)
        rw [hlen] at h
        have hkge : (allMatches memsOf query.toLower assistants).length ≤ k := by omega
        exact List.take_of_length_le hkge
    rw [hagg, hslice, hfull]
    refine List.take_of_length_le ?_
    have : ((allMatches memsOf query.toLower assistants).length : Int) ≤ (lim.toNat : Int) := by
      rw [Int.toNat_of_nonneg hl]
      exact hall
    exact_mod_cast this

/-- A tiny concrete search scenario: one ordinary assistant holding one
matching memory, plus the cache assistant (to be skipped). -/
def sagA : List Assistant :=
  [Assistant.mk (some "a1") "alpha", Assistant.mk (some "c1") "bb_browser_cache"]

/-- Concrete remote listing for the scenario. -/
def sagM : Option String → Except Unit (List Memory) :=
  fun i => if i = some "a1" then
      Except.ok [Memory.mk (some "m1") "Say Hello" none []]
    else Except.ok []

theorem memory_search_aggregate_witness :
    (0 : Int) ≤ 2 ∧
    (((searchAggregate sagA sagM "hello" 2).length : Int) ≤ 2 ∧
     (∀ r ∈ searchAggregate sagA sagM "hello" 2,
       (∃ a ∈ sagA, ¬(a.name = "bb_browser_cache") ∧ r.1 = a.id ∧ r.2.1 = a.name ∧
         ∃ mems, sagM a.id = .ok mems ∧ r.2.2 ∈ mems) ∧
       pyIn "hello".toLower r.2.2.content.toLower = true) ∧
     (((allMatches sagM "hello".toLower sagA).length : Int) ≤ 2 →
       searchAggregate sagA sagM "hello" 2 = allMatches sagM "hello".toLower sagA)) :=
  ⟨by decide, memory_search_aggregate sagA sagM "hello" 2 (by decide)⟩

end BB



